import Mathlib

/-!
Shallow embedding of `src/examples/dejkstras_algorithm.rs` (repository
`algo_examples`): Dijkstra's shortest-path routine `dejkstras_alg` together
with its helper `find_lowest_cost_node`, and a verification of the claimed
properties of the routine.

Modelling conventions:
* Rust `HashMap<K, V>` is embedded as an association list `HMap K V`
  (`List (K × V)`); iteration order of the hash map is unspecified in Rust,
  the embedding fixes it to list order.  `alookup`/`ainsert` model
  `get`/`insert` (insert replaces an existing binding in place, otherwise
  appends).
* Rust `i32` values are embedded as `Int`; the single arithmetic operation
  of the routine (`cost + neighbors[n]`) is wrapped with `wrap32`, the
  two's-complement wrap-around of release-mode `i32` addition.
  `i32::MAX` is the literal `i32Max = 2147483647`.
* The Rust `while let` loop is embedded with explicit fuel (`dloop`);
  `Except.error ()` marks fuel exhaustion, which is proved unreachable for
  the fuel `dfuel` supplied by `dejkstras_alg` (claim C2).  `Except.ok none`
  is the `?`-propagated failure of `graph.get(node)?`, `Except.ok (some m)`
  is normal loop exit with final costs table `m`.
-/

namespace Dejkstra

variable {K : Type} [DecidableEq K]

/-- Association list standing in for Rust `HashMap K V`. -/
abbrev HMap (K V : Type) := List (K × V)

/-- `type NodeGraph<K, V> = HashMap<K, HashMap<K, V>>` with `V = i32`. -/
abbrev NodeGraph (K : Type) := HMap K (HMap K Int)

/-- `HashMap::get`: first binding of the key, if any. -/
def alookup : HMap K V → K → Option V
  | [], _ => none
  | (k, v) :: rest, key => if key = k then some v else alookup rest key

/-- `HashMap::insert`: replace the binding in place, or append a fresh one. -/
def ainsert : HMap K V → K → V → HMap K V
  | [], key, val => [(key, val)]
  | (k, v) :: rest, key, val =>
      if key = k then (key, val) :: rest else (k, v) :: ainsert rest key val

/-- `i32::MAX`, used by the Rust code as the "infinity" sentinel. -/
def i32Max : Int := 2147483647

/-- Two's-complement wrap-around of `i32` addition (release-mode overflow
semantics of `cost + neighbors[n]`). -/
def wrap32 (x : Int) : Int := (x + 2147483648) % 4294967296 - 2147483648

/-- `costs.entry(n).or_insert(d)`: returns the map (with `n ↦ d` freshly
inserted when `n` was absent) together with the value now bound to `n`. -/
def entryOrInsert (costs : HMap K Int) (key : K) (dflt : Int) :
    HMap K Int × Int :=
  match alookup costs key with
  | some v => (costs, v)
  | none => (ainsert costs key dflt, dflt)

/-- The loop body of `find_lowest_cost_node`: fold over the `costs` entries
carrying the running `(lowest_cost, lowest_cost_node)` state. -/
def flcnAux (processed : List K) :
    HMap K Int → Int → Option K → Int × Option K
  | [], lowest, best => (lowest, best)
  | (node, cost) :: rest, lowest, best =>
      if node ∉ processed ∧ cost < lowest
      then flcnAux processed rest cost (some node)
      else flcnAux processed rest lowest best

/-- `find_lowest_cost_node`: the unprocessed node of strictly lowest cost
(`lowest_cost` starts at `i32::MAX`, comparison is strict). -/
def find_lowest_cost_node (costs : HMap K Int) (processed : List K) :
    Option K :=
  (flcnAux processed costs i32Max none).2

/-- The `for n in neighbors.keys()` relaxation loop of `dejkstras_alg`:
`cost` is the cost of the selected `node`, captured before the loop. -/
def relaxNeighbors (node : K) (cost : Int) :
    HMap K Int → HMap K Int → HMap K K → HMap K Int × HMap K K
  | [], costs, parents => (costs, parents)
  | (n, w) :: rest, costs, parents =>
      let newCost := wrap32 (cost + w)
      let (costs1, oldCost) := entryOrInsert costs n i32Max
      if newCost < oldCost
      then relaxNeighbors node cost rest (ainsert costs1 n newCost)
             (ainsert parents n node)
      else relaxNeighbors node cost rest costs1 parents

/-- Result of one iteration of the `while let` loop of `dejkstras_alg`. -/
inductive StepRes (K : Type) where
  /-- `find_lowest_cost_node` returned `None`: loop exits with the final
  costs table. -/
  | done (costs : HMap K Int)
  /-- `graph.get(node)?` failed: the whole call returns `None`. -/
  | fail
  /-- One full iteration: relaxed costs/parents, node marked processed. -/
  | next (costs : HMap K Int) (parents : HMap K K) (processed : List K)
  deriving DecidableEq

/-- One iteration of the main loop of `dejkstras_alg`: select the lowest-cost
unprocessed node, look up its neighbors (`?` on failure), relax them, and
mark the node processed.  The selected node always has a binding in `costs`
(it was found there), so the `getD 0` default is never used. -/
def dstep (g : NodeGraph K) (costs : HMap K Int) (parents : HMap K K)
    (processed : List K) : StepRes K :=
  match find_lowest_cost_node costs processed with
  | none => .done costs
  | some node =>
      match alookup g node with
      | none => .fail
      | some neighbors =>
          let cost := (alookup costs node).getD 0
          let (costs2, parents2) :=
            relaxNeighbors node cost neighbors costs parents
          .next costs2 parents2 (node :: processed)

/-- The fueled `while let` loop of `dejkstras_alg`. -/
def dloop (g : NodeGraph K) :
    Nat → HMap K Int → HMap K K → List K → Except Unit (Option (HMap K Int))
  | 0, _, _, _ => .error ()
  | fuel + 1, costs, parents, processed =>
      match dstep g costs parents processed with
      | .done c => .ok (some c)
      | .fail => .ok none
      | .next c p pr => dloop g fuel c p pr

/-- All nodes occurring as a neighbor (edge target) somewhere in the graph. -/
def targetsList (g : NodeGraph K) : List K :=
  (g.map (fun e => e.2.map Prod.fst)).flatten

/-- Fuel that provably suffices for the loop: every iteration marks a fresh
edge-target processed, so the iteration count is below `targetsList g`'s
length. -/
def dfuel (g : NodeGraph K) : Nat := (targetsList g).length + 1

/-- `dejkstras_alg(graph, start, finish)`: initialize `costs` to a copy of
the start node's adjacency map (`?` when `start` is unknown), run the loop,
and look `finish` up in the final costs table. -/
def dejkstras_alg (g : NodeGraph K) (start finish : K) : Option Int :=
  match alookup g start with
  | none => none
  | some startAdj =>
      match dloop g (dfuel g) startAdj [] [] with
      | .error _ => none
      | .ok none => none
      | .ok (some costs) => alookup costs finish

/-- The states `(costs, parents, processed)` a run of `dejkstras_alg g s _`
passes through: the initial state and everything reachable by loop steps. -/
inductive Reaches (g : NodeGraph K) (s : K) :
    HMap K Int → HMap K K → List K → Prop
  | init (adj : HMap K Int) : alookup g s = some adj → Reaches g s adj [] []
  | step {costs parents processed costs' parents' processed'} :
      Reaches g s costs parents processed →
      dstep g costs parents processed = .next costs' parents' processed' →
      Reaches g s costs' parents' processed'

/-! ### Specification-side notions: edges, paths, shortest distances -/

/-- `u` has an edge of weight `w` to `v` in `g`. -/
def edgeMem (g : NodeGraph K) (u v : K) (w : Int) : Prop :=
  ∃ adj, alookup g u = some adj ∧ (v, w) ∈ adj

/-- Nonempty edge paths from `u` to `v` of total (mathematical) weight `c`
whose intermediate vertices all satisfy `P`. -/
inductive PathThrough (g : NodeGraph K) (P : K → Prop) : K → K → Int → Prop
  | single {u v w} : edgeMem g u v w → PathThrough g P u v w
  | snoc {u v x c w} : PathThrough g P u v c → P v → edgeMem g v x w →
      PathThrough g P u x (c + w)

/-- Nonempty edge paths from `u` to `v` of total weight `c`. -/
def PathCost (g : NodeGraph K) (u v : K) (c : Int) : Prop :=
  PathThrough g (fun _ => True) u v c

/-- `c` is the minimum total edge weight over all paths from `s` to `f`. -/
def IsMinCost (g : NodeGraph K) (s f : K) (c : Int) : Prop :=
  PathCost g s f c ∧ ∀ c', PathCost g s f c' → c ≤ c'

/-- `v` is reachable from `s` (trivially, or by a nonempty path). -/
def ReachableFrom (g : NodeGraph K) (s v : K) : Prop :=
  v = s ∨ ∃ c, PathCost g s v c

/-- All edge weights of the graph are non-negative. -/
def nonnegWeights (g : NodeGraph K) : Prop :=
  ∀ e ∈ g, ∀ p ∈ e.2, (0 : Int) ≤ p.2

/-- Well-formedness forced by the Rust `HashMap` representation: node keys
are distinct, and so are the neighbor keys of each adjacency map. -/
def graphWF (g : NodeGraph K) : Prop :=
  (g.map Prod.fst).Nodup ∧ ∀ e ∈ g, (e.2.map Prod.fst).Nodup

/-- Every node reachable from `s` has an adjacency entry in the graph. -/
def closedFrom (g : NodeGraph K) (s : K) : Prop :=
  ∀ v, ReachableFrom g s v → (alookup g v).isSome

/-- Total weight of one adjacency map. -/
def adjWeight (adj : HMap K Int) : Int := (adj.map Prod.snd).sum

/-- Total weight of all edges of the graph. -/
def totalWeight (g : NodeGraph K) : Int :=
  (g.map (fun e => adjWeight e.2)).sum

/-- Total weight of the edges whose target lies in `T`. -/
def adjWeightOn (T : List K) (adj : HMap K Int) : Int :=
  ((adj.filter (fun p => p.1 ∈ T)).map Prod.snd).sum

/-- Total weight, over the whole graph, of edges with target in `T`. -/
def totalWeightOn (g : NodeGraph K) (T : List K) : Int :=
  (g.map (fun e => adjWeightOn T e.2)).sum

/-- A chain of consecutive edges `u → L₀ → L₁ → ⋯ → v` of total weight `c`. -/
inductive EdgeChain (g : NodeGraph K) : K → List K → K → Int → Prop
  | nil {u v w} : edgeMem g u v w → EdgeChain g u [] v w
  | cons {u x L v w c} : edgeMem g u x w → EdgeChain g x L v c →
      EdgeChain g u (x :: L) v (w + c)

/-- No edge of the graph points at `s`. -/
def noEdgeInto (g : NodeGraph K) (s : K) : Prop :=
  ∀ e ∈ g, ∀ p ∈ e.2, p.1 ≠ s

/-- Adding one edge `u → v` of weight `w`: append to `u`'s adjacency map,
or create a fresh entry for `u`. -/
def addEdge (g : NodeGraph K) (u v : K) (w : Int) : NodeGraph K :=
  match alookup g u with
  | some adj => ainsert g u (adj ++ [(v, w)])
  | none => g ++ [(u, [(v, w)])]

/-! ### Association-list lemmas -/

theorem alookup_eq_some_mem {l : HMap K V} {k : K} {v : V}
    (h : alookup l k = some v) : (k, v) ∈ l := by
  induction l with
  | nil => simp [alookup] at h
  | cons p rest ih =>
      obtain ⟨k', v'⟩ := p
      by_cases hk : k = k'
      · subst hk
        simp [alookup] at h
        simp [h]
      · simp [alookup, hk] at h
        exact List.mem_cons_of_mem _ (ih h)

theorem mem_alookup_nodup {l : HMap K V} {k : K} {v : V}
    (hn : (l.map Prod.fst).Nodup) (h : (k, v) ∈ l) : alookup l k = some v := by
  induction l with
  | nil => simp at h
  | cons p rest ih =>
      obtain ⟨k', v'⟩ := p
      simp only [List.map_cons, List.nodup_cons] at hn
      rcases List.mem_cons.mp h with h1 | h1
      · obtain ⟨rfl, rfl⟩ := Prod.mk.injEq .. ▸ h1
        simp [alookup]
      · have hkne : k ≠ k' := by
          rintro rfl
          exact hn.1 (List.mem_map.mpr ⟨(k, v), h1, rfl⟩)
        simp [alookup, hkne]
        exact ih hn.2 h1

theorem alookup_isSome_of_mem_keys {l : HMap K V} {k : K}
    (h : k ∈ l.map Prod.fst) : ∃ v, alookup l k = some v := by
  induction l with
  | nil => simp at h
  | cons p rest ih =>
      obtain ⟨k', v'⟩ := p
      by_cases hk : k = k'
      · exact ⟨v', by simp [alookup, hk]⟩
      · rw [List.map_cons, List.mem_cons] at h
        rcases h with h | h
        · exact absurd h hk
        · simpa [alookup, hk] using ih h

theorem mem_keys_of_alookup {l : HMap K V} {k : K} {v : V}
    (h : alookup l k = some v) : k ∈ l.map Prod.fst :=
  List.mem_map.mpr ⟨(k, v), alookup_eq_some_mem h, rfl⟩

theorem alookup_ainsert_self (l : HMap K V) (k : K) (v : V) :
    alookup (ainsert l k v) k = some v := by
  induction l with
  | nil => simp [ainsert, alookup]
  | cons p rest ih =>
      obtain ⟨k', v'⟩ := p
      by_cases hk : k = k'
      · simp [ainsert, hk, alookup]
      · simp [ainsert, hk, alookup, ih]

theorem alookup_ainsert_ne (l : HMap K V) {k k' : K} (v : V) (h : k' ≠ k) :
    alookup (ainsert l k v) k' = alookup l k' := by
  induction l with
  | nil => simp [ainsert, alookup, h]
  | cons p rest ih =>
      obtain ⟨k₀, v₀⟩ := p
      by_cases hk : k = k₀
      · subst hk
        simp [ainsert, alookup, h]
      · by_cases hk' : k' = k₀ <;> simp [ainsert, hk, alookup, hk', ih]

theorem mem_keys_ainsert {l : HMap K V} {k x : K} {v : V}
    (h : x ∈ (ainsert l k v).map Prod.fst) :
    x = k ∨ x ∈ l.map Prod.fst := by
  induction l with
  | nil => simpa [ainsert] using h
  | cons p rest ih =>
      obtain ⟨k₀, v₀⟩ := p
      by_cases hk : k = k₀
      · subst hk
        simpa [ainsert] using h
      · simp only [ainsert, if_neg hk, List.map_cons, List.mem_cons] at h ⊢
        rcases h with h | h
        · exact Or.inr (Or.inl h)
        · rcases ih h with h | h
          · exact Or.inl h
          · exact Or.inr (Or.inr h)

theorem nodup_keys_ainsert {l : HMap K V} (k : K) (v : V)
    (hn : (l.map Prod.fst).Nodup) : ((ainsert l k v).map Prod.fst).Nodup := by
  induction l with
  | nil => simp [ainsert]
  | cons p rest ih =>
      obtain ⟨k₀, v₀⟩ := p
      simp only [List.map_cons, List.nodup_cons] at hn
      by_cases hk : k = k₀
      · subst hk
        simpa [ainsert, List.map_cons, List.nodup_cons] using hn
      · simp only [ainsert, if_neg hk, List.map_cons, List.nodup_cons]
        refine ⟨fun hmem => ?_, ih hn.2⟩
        rcases mem_keys_ainsert hmem with h | h
        · exact hk h.symm
        · exact hn.1 h

theorem alookup_append_left {l t : HMap K V} {k : K} {v : V}
    (h : alookup l k = some v) : alookup (l ++ t) k = some v := by
  induction l with
  | nil => simp [alookup] at h
  | cons p rest ih =>
      obtain ⟨k₀, v₀⟩ := p
      by_cases hk : k = k₀ <;> simp_all [alookup]

theorem alookup_append_right {l t : HMap K V} {k : K}
    (h : alookup l k = none) : alookup (l ++ t) k = alookup t k := by
  induction l with
  | nil => simp
  | cons p rest ih =>
      obtain ⟨k₀, v₀⟩ := p
      by_cases hk : k = k₀ <;> simp_all [alookup]

/-! ### `wrap32` and `entryOrInsert` lemmas -/

/-- Within `i32` range the wrap-around addition is mathematical addition. -/
theorem wrap32_eq {x : Int} (h1 : -2147483648 ≤ x) (h2 : x < 2147483648) :
    wrap32 x = x := by
  unfold wrap32
  omega

theorem entryOrInsert_lookup_of_some {costs : HMap K Int} {k : K} {c d : Int}
    (h : alookup costs k = some c) :
    entryOrInsert costs k d = (costs, c) := by
  simp [entryOrInsert, h]

theorem entryOrInsert_lookup_of_none {costs : HMap K Int} {k : K} {d : Int}
    (h : alookup costs k = none) :
    entryOrInsert costs k d = (ainsert costs k d, d) := by
  simp [entryOrInsert, h]

theorem entryOrInsert_fst_lookup_self (costs : HMap K Int) (k : K) (d : Int) :
    alookup (entryOrInsert costs k d).1 k = some (entryOrInsert costs k d).2 := by
  cases h : alookup costs k with
  | none => simp [entryOrInsert_lookup_of_none h, alookup_ainsert_self]
  | some c => simp [entryOrInsert_lookup_of_some h, h]

theorem entryOrInsert_fst_lookup_ne (costs : HMap K Int) {k k' : K} (d : Int)
    (h : k' ≠ k) :
    alookup (entryOrInsert costs k d).1 k' = alookup costs k' := by
  cases hc : alookup costs k with
  | none => simp [entryOrInsert_lookup_of_none hc, alookup_ainsert_ne _ _ h]
  | some c => simp [entryOrInsert_lookup_of_some hc]

theorem entryOrInsert_fst_lookup_of_some {costs : HMap K Int} {k' : K}
    {c : Int} (k : K) (d : Int) (h : alookup costs k' = some c) :
    alookup (entryOrInsert costs k d).1 k' = some c := by
  by_cases hk : k' = k
  · subst hk
    simp [entryOrInsert_lookup_of_some h, h]
  · rw [entryOrInsert_fst_lookup_ne _ _ hk]
    exact h

theorem mem_keys_entryOrInsert {costs : HMap K Int} {k x : K} {d : Int}
    (h : x ∈ ((entryOrInsert costs k d).1).map Prod.fst) :
    x = k ∨ x ∈ costs.map Prod.fst := by
  cases hc : alookup costs k with
  | none =>
      rw [entryOrInsert_lookup_of_none hc] at h
      exact mem_keys_ainsert h
  | some c =>
      rw [entryOrInsert_lookup_of_some hc] at h
      exact Or.inr h

theorem nodup_keys_entryOrInsert {costs : HMap K Int} (k : K) (d : Int)
    (hn : (costs.map Prod.fst).Nodup) :
    (((entryOrInsert costs k d).1).map Prod.fst).Nodup := by
  cases hc : alookup costs k with
  | none => rw [entryOrInsert_lookup_of_none hc]; exact nodup_keys_ainsert _ _ hn
  | some c => rw [entryOrInsert_lookup_of_some hc]; exact hn

/-! ### Specification of `find_lowest_cost_node` -/

theorem flcnAux_spec (processed : List K) (l : HMap K Int)
    (lowest : Int) (best : Option K) :
    (flcnAux processed l lowest best).1 ≤ lowest ∧
    (∀ p ∈ l, p.1 ∉ processed → (flcnAux processed l lowest best).1 ≤ p.2) ∧
    (((flcnAux processed l lowest best).2 = best ∧
        (flcnAux processed l lowest best).1 = lowest) ∨
      (∃ m, (flcnAux processed l lowest best).2 = some m ∧ m ∉ processed ∧
        (m, (flcnAux processed l lowest best).1) ∈ l ∧
        (flcnAux processed l lowest best).1 < lowest)) := by
  induction l generalizing lowest best with
  | nil => simp [flcnAux]
  | cons p rest ih =>
      obtain ⟨node, cost⟩ := p
      by_cases hc : node ∉ processed ∧ cost < lowest
      · rw [show flcnAux processed ((node, cost) :: rest) lowest best
              = flcnAux processed rest cost (some node) by simp [flcnAux, hc]]
        obtain ⟨ih1, ih2, ih3⟩ := ih cost (some node)
        refine ⟨le_trans ih1 (le_of_lt hc.2), ?_, ?_⟩
        · intro q hq hqp
          rcases List.mem_cons.mp hq with rfl | hq2
          · exact ih1
          · exact ih2 q hq2 hqp
        · rcases ih3 with ⟨h2, h1⟩ | ⟨m, h2, hm, hmem, hlt⟩
          · exact Or.inr ⟨node, h2, hc.1, by rw [h1]; exact List.mem_cons_self ..,
              by rw [h1]; exact hc.2⟩
          · exact Or.inr ⟨m, h2, hm, List.mem_cons_of_mem _ hmem,
              lt_trans hlt hc.2⟩
      · rw [show flcnAux processed ((node, cost) :: rest) lowest best
              = flcnAux processed rest lowest best by simp [flcnAux, hc]]
        obtain ⟨ih1, ih2, ih3⟩ := ih lowest best
        refine ⟨ih1, ?_, ?_⟩
        · intro q hq hqp
          rcases List.mem_cons.mp hq with rfl | hq2
          · have hle : lowest ≤ cost := by
              by_contra hlt
              exact hc ⟨hqp, by omega⟩
            exact le_trans ih1 hle
          · exact ih2 q hq2 hqp
        · rcases ih3 with h | ⟨m, h2, hm, hmem, hlt⟩
          · exact Or.inl h
          · exact Or.inr ⟨m, h2, hm, List.mem_cons_of_mem _ hmem, hlt⟩

theorem flcn_none {costs : HMap K Int} {processed : List K}
    (h : find_lowest_cost_node costs processed = none) :
    ∀ p ∈ costs, p.1 ∉ processed → i32Max ≤ p.2 := by
  intro p hp hpp
  obtain ⟨h1, h2, h3⟩ := flcnAux_spec processed costs i32Max none
  rcases h3 with ⟨_, hl⟩ | ⟨m, hm, _⟩
  · rw [← hl]
    exact h2 p hp hpp
  · rw [find_lowest_cost_node, hm] at h
    exact absurd h (by simp)

theorem flcn_some {costs : HMap K Int} {processed : List K} {m : K}
    (h : find_lowest_cost_node costs processed = some m) :
    m ∉ processed ∧ ∃ cm, (m, cm) ∈ costs ∧ cm < i32Max ∧
      ∀ p ∈ costs, p.1 ∉ processed → cm ≤ p.2 := by
  obtain ⟨h1, h2, h3⟩ := flcnAux_spec processed costs i32Max none
  rcases h3 with ⟨hb, _⟩ | ⟨m', hm', hmp, hmem, hlt⟩
  · rw [find_lowest_cost_node, hb] at h
    exact absurd h (by simp)
  · rw [find_lowest_cost_node, hm'] at h
    obtain rfl : m' = m := by simpa using h
    exact ⟨hmp, _, hmem, hlt, h2⟩

/-! ### Lemmas about the relaxation loop -/

theorem relaxNeighbors_cons (node : K) (cost : Int) (n : K) (w : Int)
    (rest : HMap K Int) (costs : HMap K Int) (parents : HMap K K) :
    relaxNeighbors node cost ((n, w) :: rest) costs parents =
      if wrap32 (cost + w) < (entryOrInsert costs n i32Max).2
      then relaxNeighbors node cost rest
        (ainsert (entryOrInsert costs n i32Max).1 n (wrap32 (cost + w)))
        (ainsert parents n node)
      else relaxNeighbors node cost rest (entryOrInsert costs n i32Max).1
        parents := by
  rcases h : entryOrInsert costs n i32Max with ⟨c1, o⟩
  simp [relaxNeighbors, h]

theorem relax_nodup (node : K) (cost : Int) (nbrs : HMap K Int)
    {costs : HMap K Int} (parents : HMap K K)
    (hn : (costs.map Prod.fst).Nodup) :
    (((relaxNeighbors node cost nbrs costs parents).1).map Prod.fst).Nodup := by
  induction nbrs generalizing costs parents with
  | nil => exact hn
  | cons p rest ih =>
      obtain ⟨n, w⟩ := p
      rw [relaxNeighbors_cons]
      by_cases hlt : wrap32 (cost + w) < (entryOrInsert costs n i32Max).2
      · rw [if_pos hlt]
        exact ih _ (nodup_keys_ainsert _ _ (nodup_keys_entryOrInsert _ _ hn))
      · rw [if_neg hlt]
        exact ih _ (nodup_keys_entryOrInsert _ _ hn)

theorem relax_keys (node : K) (cost : Int) (nbrs : HMap K Int)
    {costs : HMap K Int} (parents : HMap K K) :
    ∀ x ∈ ((relaxNeighbors node cost nbrs costs parents).1).map Prod.fst,
      x ∈ costs.map Prod.fst ∨ x ∈ nbrs.map Prod.fst := by
  induction nbrs generalizing costs parents with
  | nil => exact fun x hx => Or.inl hx
  | cons p rest ih =>
      obtain ⟨n, w⟩ := p
      intro x hx
      rw [relaxNeighbors_cons] at hx
      by_cases hlt : wrap32 (cost + w) < (entryOrInsert costs n i32Max).2
      · rw [if_pos hlt] at hx
        rcases ih _ x hx with h | h
        · rcases mem_keys_ainsert h with rfl | h2
          · exact Or.inr (by simp)
          · rcases mem_keys_entryOrInsert h2 with rfl | h3
            · exact Or.inr (by simp)
            · exact Or.inl h3
        · exact Or.inr (by simp [h])
      · rw [if_neg hlt] at hx
        rcases ih _ x hx with h | h
        · rcases mem_keys_entryOrInsert h with rfl | h2
          · exact Or.inr (by simp)
          · exact Or.inl h2
        · exact Or.inr (by simp [h])

theorem relax_mono (node : K) (cost : Int) (nbrs : HMap K Int)
    {costs : HMap K Int} (parents : HMap K K) {v : K} {c : Int}
    (h : alookup costs v = some c) :
    ∃ c', alookup ((relaxNeighbors node cost nbrs costs parents).1) v
      = some c' ∧ c' ≤ c := by
  induction nbrs generalizing costs parents c with
  | nil => exact ⟨c, h, le_refl c⟩
  | cons p rest ih =>
      obtain ⟨n, w⟩ := p
      rw [relaxNeighbors_cons]
      by_cases hlt : wrap32 (cost + w) < (entryOrInsert costs n i32Max).2
      · rw [if_pos hlt]
        by_cases hv : v = n
        · subst hv
          rw [entryOrInsert_lookup_of_some h] at hlt ⊢
          obtain ⟨c', hc', hle⟩ := ih _ (alookup_ainsert_self _ _ _)
          exact ⟨c', hc', le_trans hle (le_of_lt hlt)⟩
        · have h1 : alookup (ainsert (entryOrInsert costs n i32Max).1 n
              (wrap32 (cost + w))) v = some c := by
            rw [alookup_ainsert_ne _ _ hv]
            exact entryOrInsert_fst_lookup_of_some _ _ h
          exact ih _ h1
      · rw [if_neg hlt]
        exact ih _ (entryOrInsert_fst_lookup_of_some _ _ h)

theorem relax_after_edge (node : K) (cost : Int) {nbrs : HMap K Int}
    {costs : HMap K Int} {parents : HMap K K} {v : K} {w : Int}
    (h : (v, w) ∈ nbrs) :
    ∃ c', alookup ((relaxNeighbors node cost nbrs costs parents).1) v
      = some c' ∧ c' ≤ wrap32 (cost + w) := by
  induction nbrs generalizing costs parents with
  | nil => simp at h
  | cons p rest ih =>
      obtain ⟨n, w₀⟩ := p
      rw [relaxNeighbors_cons]
      rcases List.mem_cons.mp h with heq | hrest
      · obtain ⟨rfl, rfl⟩ := Prod.mk.injEq .. ▸ heq
        by_cases hlt : wrap32 (cost + w) < (entryOrInsert costs v i32Max).2
        · rw [if_pos hlt]
          obtain ⟨c', hc', hle⟩ := relax_mono node cost rest _
            (alookup_ainsert_self (entryOrInsert costs v i32Max).1 v
              (wrap32 (cost + w)))
          exact ⟨c', hc', hle⟩
        · rw [if_neg hlt]
          push_neg at hlt
          obtain ⟨c', hc', hle⟩ := relax_mono node cost rest _
            (entryOrInsert_fst_lookup_self costs v i32Max)
          exact ⟨c', hc', le_trans hle hlt⟩
      · by_cases hlt : wrap32 (cost + w₀) < (entryOrInsert costs n i32Max).2
        · rw [if_pos hlt]
          exact ih hrest
        · rw [if_neg hlt]
          exact ih hrest

theorem relax_preserve (node : K) (cost : Int) {nbrs : HMap K Int}
    {costs : HMap K Int} {parents : HMap K K} {v : K} {c : Int}
    (h : alookup costs v = some c)
    (hkeep : ∀ w, (v, w) ∈ nbrs → ¬ wrap32 (cost + w) < c) :
    alookup ((relaxNeighbors node cost nbrs costs parents).1) v = some c := by
  induction nbrs generalizing costs parents with
  | nil => exact h
  | cons p rest ih =>
      obtain ⟨n, w₀⟩ := p
      rw [relaxNeighbors_cons]
      by_cases hv : n = v
      · subst hv
        rw [entryOrInsert_lookup_of_some h]
        rw [if_neg (hkeep w₀ (List.mem_cons_self ..))]
        exact ih h (fun w hw => hkeep w (List.mem_cons_of_mem _ hw))
      · have h1 : alookup (entryOrInsert costs n i32Max).1 v = some c :=
          entryOrInsert_fst_lookup_of_some _ _ h
        by_cases hlt : wrap32 (cost + w₀) < (entryOrInsert costs n i32Max).2
        · rw [if_pos hlt]
          exact ih (by rw [alookup_ainsert_ne _ _ (fun he => hv he.symm)]; exact h1)
            (fun w hw => hkeep w (List.mem_cons_of_mem _ hw))
        · rw [if_neg hlt]
          exact ih h1 (fun w hw => hkeep w (List.mem_cons_of_mem _ hw))

theorem relax_origin (node : K) (cost : Int) {nbrs : HMap K Int}
    {costs : HMap K Int} {parents : HMap K K} {v : K} {c' : Int}
    (h : alookup ((relaxNeighbors node cost nbrs costs parents).1) v
      = some c') :
    alookup costs v = some c' ∨
    ∃ w, (v, w) ∈ nbrs ∧ (c' = wrap32 (cost + w) ∨
      (c' = i32Max ∧ ¬ wrap32 (cost + w) < i32Max)) := by
  induction nbrs generalizing costs parents with
  | nil => exact Or.inl h
  | cons p rest ih =>
      obtain ⟨n, w₀⟩ := p
      rw [relaxNeighbors_cons] at h
      by_cases hlt : wrap32 (cost + w₀) < (entryOrInsert costs n i32Max).2
      · rw [if_pos hlt] at h
        rcases ih h with h1 | ⟨w, hw, hc⟩
        · by_cases hv : v = n
          · subst hv
            rw [alookup_ainsert_self] at h1
            exact Or.inr ⟨w₀, List.mem_cons_self .., Or.inl (by simpa using h1.symm)⟩
          · rw [alookup_ainsert_ne _ _ hv, entryOrInsert_fst_lookup_ne _ _ hv] at h1
            exact Or.inl h1
        · exact Or.inr ⟨w, List.mem_cons_of_mem _ hw, hc⟩
      · rw [if_neg hlt] at h
        rcases ih h with h1 | ⟨w, hw, hc⟩
        · by_cases hv : v = n
          · subst hv
            cases hc : alookup costs v with
            | some c₀ =>
                rw [entryOrInsert_lookup_of_some hc] at h1
                have h2 : alookup costs v = some c' := h1
                exact Or.inl (hc.symm.trans h2)
            | none =>
                rw [entryOrInsert_lookup_of_none hc, alookup_ainsert_self] at h1
                obtain rfl : i32Max = c' := by simpa using h1
                rw [entryOrInsert_lookup_of_none hc] at hlt
                exact Or.inr ⟨w₀, List.mem_cons_self .., Or.inr ⟨rfl, hlt⟩⟩
          · rw [entryOrInsert_fst_lookup_ne _ _ hv] at h1
            exact Or.inl h1
        · exact Or.inr ⟨w, List.mem_cons_of_mem _ hw, hc⟩

/-! ### Path and edge-chain lemmas -/

theorem edge_nonneg {g : NodeGraph K} (hw : nonnegWeights g) {u v : K}
    {w : Int} (h : edgeMem g u v w) : 0 ≤ w := by
  obtain ⟨adj, hadj, hmem⟩ := h
  exact hw (u, adj) (alookup_eq_some_mem hadj) (v, w) hmem

theorem path_nonneg {g : NodeGraph K} (hw : nonnegWeights g) {P : K → Prop}
    {u v : K} {c : Int} (h : PathThrough g P u v c) : 0 ≤ c := by
  induction h with
  | single he => exact edge_nonneg hw he
  | snoc _ _ he ih => have := edge_nonneg hw he; omega

theorem pathThrough_mono {g : NodeGraph K} {P Q : K → Prop}
    (hpq : ∀ x, P x → Q x) {u v : K} {c : Int}
    (h : PathThrough g P u v c) : PathThrough g Q u v c := by
  induction h with
  | single he => exact .single he
  | snoc _ hP he ih => exact .snoc ih (hpq _ hP) he

theorem edge_target_mem {g : NodeGraph K} {u v : K} {w : Int}
    (h : edgeMem g u v w) : v ∈ targetsList g := by
  obtain ⟨adj, hadj, hmem⟩ := h
  refine List.mem_flatten.mpr ⟨adj.map Prod.fst, ?_, ?_⟩
  · exact List.mem_map.mpr ⟨(u, adj), alookup_eq_some_mem hadj, rfl⟩
  · exact List.mem_map.mpr ⟨(v, w), hmem, rfl⟩

theorem path_target_mem {g : NodeGraph K} {P : K → Prop} {u v : K} {c : Int}
    (h : PathThrough g P u v c) : v ∈ targetsList g := by
  induction h with
  | single he => exact edge_target_mem he
  | snoc _ _ he _ => exact edge_target_mem he

/-- Every path either keeps all its intermediate vertices inside `P`, or
visits (with non-negative weights, at no larger prefix cost) some vertex
outside `P` with a `P`-internal prefix. -/
theorem path_decompose {g : NodeGraph K} (hw : nonnegWeights g) (P : K → Prop)
    {s v : K} {c : Int} (h : PathCost g s v c) :
    PathThrough g P s v c ∨
    ∃ u c₁, ¬ P u ∧ PathThrough g P s u c₁ ∧ c₁ ≤ c := by
  induction h with
  | single he => exact Or.inl (.single he)
  | @snoc v' x' c' w' p _ he ih =>
      have hw' : 0 ≤ w' := edge_nonneg hw he
      rcases ih with hin | ⟨u, c₁, hu, hp, hle⟩
      · by_cases hPv : P v'
        · exact Or.inl (.snoc hin hPv he)
        · exact Or.inr ⟨v', c', hPv, hin, by omega⟩
      · exact Or.inr ⟨u, c₁, hu, hp, by omega⟩

theorem chain_snoc {g : NodeGraph K} {s u : K} {L : List K} {c : Int}
    (h : EdgeChain g s L u c) :
    ∀ {v : K} {w : Int}, edgeMem g u v w → EdgeChain g s (L ++ [u]) v (c + w) := by
  induction h with
  | nil h0 =>
      intro v w he
      exact .cons h0 (.nil he)
  | cons h0 _ ih =>
      intro v w he
      exact (by simpa [add_assoc] using EdgeChain.cons h0 (ih he))

theorem path_prepend {g : NodeGraph K} {P : K → Prop} {x v : K} {c : Int}
    (h : PathThrough g P x v c) :
    ∀ {u : K} {w : Int}, edgeMem g u x w → P x → PathThrough g P u v (w + c) := by
  induction h with
  | single h0 =>
      intro u w he hxP
      exact .snoc (.single he) hxP h0
  | snoc p hP h0 ih =>
      intro u w he hxP
      exact (by simpa [add_assoc] using PathThrough.snoc (ih he hxP) hP h0)

theorem chain_to_path {g : NodeGraph K} {s v : K} {L : List K} {c : Int}
    (h : EdgeChain g s L v c) : PathCost g s v c := by
  induction h with
  | nil h0 => exact .single h0
  | cons h0 _ ih => exact path_prepend ih h0 trivial

/-! ### Weight bounds -/

theorem adjWeight_nonneg {adj : HMap K Int} (h : ∀ p ∈ adj, (0:Int) ≤ p.2) :
    0 ≤ adjWeight adj := by
  refine List.sum_nonneg ?_
  intro x hx
  obtain ⟨p, hp, rfl⟩ := List.mem_map.mp hx
  exact h p hp

theorem adjWeightOn_nonneg {adj : HMap K Int} (T : List K)
    (h : ∀ p ∈ adj, (0:Int) ≤ p.2) : 0 ≤ adjWeightOn T adj := by
  refine List.sum_nonneg ?_
  intro x hx
  obtain ⟨p, hp, rfl⟩ := List.mem_map.mp hx
  exact h p (List.mem_of_mem_filter hp)

theorem list_sum_map_add {α : Type} (l : List α) (f g : α → Int) :
    (l.map (fun e => f e + g e)).sum = (l.map f).sum + (l.map g).sum := by
  induction l with
  | nil => simp
  | cons a rest ih =>
      simp only [List.map_cons, List.sum_cons, ih]
      omega

theorem adjWeightOn_le_adjWeight {adj : HMap K Int} (T : List K)
    (h : ∀ p ∈ adj, (0:Int) ≤ p.2) : adjWeightOn T adj ≤ adjWeight adj := by
  induction adj with
  | nil => simp [adjWeightOn, adjWeight]
  | cons p rest ih =>
      have hp : (0:Int) ≤ p.2 := h p (List.mem_cons_self ..)
      have ih2 := ih (fun q hq => h q (List.mem_cons_of_mem _ hq))
      unfold adjWeightOn adjWeight at ih2 ⊢
      by_cases hmem : p.1 ∈ T
      · rw [List.filter_cons_of_pos (by simpa using hmem), List.map_cons,
          List.map_cons, List.sum_cons, List.sum_cons]
        omega
      · rw [List.filter_cons_of_neg (by simpa using hmem), List.map_cons,
          List.sum_cons]
        omega

theorem totalWeightOn_le_totalWeight {g : NodeGraph K} (T : List K)
    (hw : nonnegWeights g) : totalWeightOn g T ≤ totalWeight g := by
  unfold totalWeightOn totalWeight
  refine List.sum_le_sum ?_
  intro e he
  exact adjWeightOn_le_adjWeight T (fun p hp => hw e he p hp)

theorem totalWeightOn_nonneg {g : NodeGraph K} (T : List K)
    (hw : nonnegWeights g) : 0 ≤ totalWeightOn g T := by
  refine List.sum_nonneg ?_
  intro x hx
  obtain ⟨e, he, rfl⟩ := List.mem_map.mp hx
  exact adjWeightOn_nonneg T (fun p hp => hw e he p hp)

theorem edge_le_totalWeightOn {g : NodeGraph K} {u x : K} {w : Int}
    {T : List K} (hw : nonnegWeights g) (h : edgeMem g u x w) (hx : x ∈ T) :
    w ≤ totalWeightOn g T := by
  obtain ⟨adj, hadj, hmem⟩ := h
  have hg : (u, adj) ∈ g := alookup_eq_some_mem hadj
  have h1 : w ≤ adjWeightOn T adj := by
    have hmem2 : (x, w) ∈ adj.filter (fun p => p.1 ∈ T) :=
      List.mem_filter.mpr ⟨hmem, by simpa using hx⟩
    have hmem3 : w ∈ (adj.filter (fun p => p.1 ∈ T)).map Prod.snd :=
      List.mem_map.mpr ⟨(x, w), hmem2, rfl⟩
    refine List.single_le_sum ?_ _ hmem3
    intro y hy
    obtain ⟨p, hp, rfl⟩ := List.mem_map.mp hy
    exact hw (u, adj) hg p (List.mem_of_mem_filter hp)
  refine le_trans h1 ?_
  have hmem4 : adjWeightOn T adj ∈ g.map (fun e => adjWeightOn T e.2) :=
    List.mem_map.mpr ⟨(u, adj), hg, rfl⟩
  refine List.single_le_sum ?_ _ hmem4
  intro y hy
  obtain ⟨e, he, rfl⟩ := List.mem_map.mp hy
  exact adjWeightOn_nonneg T (fun p hp => hw e he p hp)

theorem edge_le_totalWeight {g : NodeGraph K} {u x : K} {w : Int}
    (hw : nonnegWeights g) (h : edgeMem g u x w) : w ≤ totalWeight g :=
  le_trans (edge_le_totalWeightOn hw h (List.mem_cons_self ..))
    (totalWeightOn_le_totalWeight [x] hw)

theorem adjWeightOn_cons {x : K} {T : List K} (hx : x ∉ T)
    (adj : HMap K Int) :
    adjWeightOn (x :: T) adj = adjWeightOn [x] adj + adjWeightOn T adj := by
  induction adj with
  | nil => simp [adjWeightOn]
  | cons p rest ih =>
      unfold adjWeightOn at ih ⊢
      by_cases h1 : p.1 = x
      · have h2 : p.1 ∉ T := h1 ▸ hx
        rw [List.filter_cons_of_pos (by simp [h1]),
          List.filter_cons_of_pos (by simp [h1]),
          List.filter_cons_of_neg (by simpa using h2),
          List.map_cons, List.map_cons, List.sum_cons, List.sum_cons]
        omega
      · by_cases h2 : p.1 ∈ T
        · rw [List.filter_cons_of_pos (by simp [h2]),
            List.filter_cons_of_neg (by simp [h1]),
            List.filter_cons_of_pos (by simpa using h2),
            List.map_cons, List.map_cons, List.sum_cons, List.sum_cons]
          omega
        · rw [List.filter_cons_of_neg (by simp [h1, h2]),
            List.filter_cons_of_neg (by simp [h1]),
            List.filter_cons_of_neg (by simpa using h2)]
          omega

theorem totalWeightOn_cons (g : NodeGraph K) {x : K} {T : List K}
    (hx : x ∉ T) :
    totalWeightOn g (x :: T) = totalWeightOn g [x] + totalWeightOn g T := by
  unfold totalWeightOn
  rw [show (g.map (fun e => adjWeightOn (x :: T) e.2))
      = g.map (fun e => adjWeightOn [x] e.2 + adjWeightOn T e.2) from
    List.map_congr_left (fun e _ => adjWeightOn_cons hx e.2)]
  exact list_sum_map_add g _ _

theorem chain_le_totalWeightOn {g : NodeGraph K} (hw : nonnegWeights g)
    {s v : K} {L : List K} {c : Int} (h : EdgeChain g s L v c)
    (hn : (L ++ [v]).Nodup) : c ≤ totalWeightOn g (L ++ [v]) := by
  induction h with
  | nil h0 => exact edge_le_totalWeightOn hw h0 (by simp)
  | cons h0 hc ih =>
      rename_i u x L₀ v₀ w₀ c₀
      simp only [List.cons_append, List.nodup_cons] at hn
      have hx : x ∉ L₀ ++ [v₀] := hn.1
      have h1 : c₀ ≤ totalWeightOn g (L₀ ++ [v₀]) := ih hn.2
      have h2 : w₀ ≤ totalWeightOn g [x] :=
        edge_le_totalWeightOn hw h0 (List.mem_cons_self ..)
      have h3 := totalWeightOn_cons g hx
      simp only [List.cons_append]
      omega

theorem chain_le_totalWeight {g : NodeGraph K} (hw : nonnegWeights g)
    {s v : K} {L : List K} {c : Int} (h : EdgeChain g s L v c)
    (hn : (L ++ [v]).Nodup) : c ≤ totalWeight g :=
  le_trans (chain_le_totalWeightOn hw h hn)
    (totalWeightOn_le_totalWeight _ hw)

theorem totalWeight_nonneg {g : NodeGraph K} (hw : nonnegWeights g) :
    0 ≤ totalWeight g := by
  refine List.sum_nonneg ?_
  intro x hx
  obtain ⟨e, he, rfl⟩ := List.mem_map.mp hx
  exact adjWeight_nonneg (fun p hp => hw e he p hp)

/-! ### The loop invariant of `dejkstras_alg` -/

/-- The invariant a run of `dejkstras_alg g s _` maintains on the pair
`(costs, processed)` (for a graph with `HashMap`-well-formed representation,
non-negative weights and total weight below `2^30`, so that no `i32`
overflow can occur). -/
structure Inv (g : NodeGraph K) (s : K) (costs : HMap K Int)
    (processed : List K) : Prop where
  /-- the costs table has distinct keys -/
  nodupCosts : (costs.map Prod.fst).Nodup
  /-- the processed set has distinct elements -/
  nodupProc : processed.Nodup
  /-- every processed node has a cost entry -/
  procKeys : ∀ v ∈ processed, ∃ c, alookup costs v = some c
  /-- every cost entry is the cost of an actual path from `s` -/
  entryPath : ∀ v c, alookup costs v = some c → PathCost g s v c
  /-- every cost entry is strictly below the `i32::MAX` sentinel -/
  entryLt : ∀ v c, alookup costs v = some c → c < i32Max
  /-- processed nodes carry their final, minimal cost -/
  procDist : ∀ v ∈ processed, ∀ c, alookup costs v = some c →
      IsMinCost g s v c
  /-- every entry is a direct edge from `s`, or one relaxation step away
  from a processed node's entry -/
  entryOrigin : ∀ v c, alookup costs v = some c →
      (∃ w, edgeMem g s v w ∧ c = w) ∨
      (∃ u cu w, u ∈ processed ∧ alookup costs u = some cu ∧
        edgeMem g u v w ∧ c = cu + w)
  /-- each processed node's cost is realized by an edge chain with distinct
  processed targets (whence bounded by the total weight) -/
  procChain : ∀ v ∈ processed, ∀ c, alookup costs v = some c →
      ∃ L, EdgeChain g s L v c ∧ (L ++ [v]).Nodup ∧ ∀ x ∈ L, x ∈ processed
  /-- all out-edges of processed nodes have been relaxed -/
  procRelaxed : ∀ u ∈ processed, ∀ cu, alookup costs u = some cu →
      ∀ v w, edgeMem g u v w → ∃ cv, alookup costs v = some cv ∧ cv ≤ cu + w
  /-- the direct edges out of `s` have been relaxed (initialization) -/
  sEdge : ∀ v w, edgeMem g s v w → ∃ c, alookup costs v = some c ∧ c ≤ w
  /-- processed costs are below all other costs -/
  procMin : ∀ u ∈ processed, ∀ cu, alookup costs u = some cu →
      ∀ v, v ∉ processed → ∀ cv, alookup costs v = some cv → cu ≤ cv
  /-- every key of the costs table is an edge target of the graph -/
  keysTargets : ∀ v c, alookup costs v = some c → v ∈ targetsList g

theorem Inv_init {g : NodeGraph K} {s : K} {adj : HMap K Int}
    (hwf : graphWF g) (hw : nonnegWeights g)
    (hb : totalWeight g < 1073741824)
    (hs : alookup g s = some adj) : Inv g s adj [] := by
  have hadjmem : (s, adj) ∈ g := alookup_eq_some_mem hs
  have hnd : (adj.map Prod.fst).Nodup := hwf.2 (s, adj) hadjmem
  have hedge : ∀ v c, alookup adj v = some c → edgeMem g s v c :=
    fun v c h => ⟨adj, hs, alookup_eq_some_mem h⟩
  refine ⟨hnd, List.nodup_nil, by simp, ?_, ?_, by simp, ?_, by simp, by simp,
    ?_, by simp, ?_⟩
  · exact fun v c h => .single (hedge v c h)
  · intro v c h
    have h1 : c ≤ totalWeight g := edge_le_totalWeight hw (hedge v c h)
    unfold i32Max
    omega
  · exact fun v c h => Or.inl ⟨c, hedge v c h, rfl⟩
  · intro v w he
    obtain ⟨adj₀, hs₀, hmem⟩ := he
    rw [hs] at hs₀
    obtain rfl : adj₀ = adj := by simpa using hs₀.symm
    exact ⟨w, mem_alookup_nodup hnd hmem, le_refl w⟩
  · exact fun v c h => edge_target_mem (hedge v c h)

/-- Covering: every path whose intermediate vertices are all processed is
dominated by an entry of the costs table. -/
theorem Inv_covering {g : NodeGraph K} {s : K} {costs : HMap K Int}
    {processed : List K} (inv : Inv g s costs processed) :
    ∀ v c, PathThrough g (fun x => x ∈ processed) s v c →
      ∃ c', alookup costs v = some c' ∧ c' ≤ c := by
  intro v c h
  induction h with
  | single he => exact inv.sEdge _ _ he
  | @snoc v' x' c' w' p hP he ih =>
      obtain ⟨cv, hcv, hle⟩ := ih
      obtain ⟨cx, hcx, hle2⟩ := inv.procRelaxed v' hP cv hcv x' w' he
      exact ⟨cx, hcx, by omega⟩

/-- The selected node of `find_lowest_cost_node` carries its exact minimal
path cost, bounded by the total weight of the graph. -/
theorem Inv_selection {g : NodeGraph K} {s : K} {costs : HMap K Int}
    {processed : List K} {m : K}
    (hw : nonnegWeights g) (inv : Inv g s costs processed)
    (hm : find_lowest_cost_node costs processed = some m) :
    ∃ cm, alookup costs m = some cm ∧ m ∉ processed ∧ cm < i32Max ∧
      IsMinCost g s m cm ∧ cm ≤ totalWeight g ∧
      (∀ p ∈ costs, p.1 ∉ processed → cm ≤ p.2) ∧
      (∃ L, EdgeChain g s L m cm ∧ (L ++ [m]).Nodup ∧
        ∀ x ∈ L, x ∈ processed) := by
  obtain ⟨hmp, cm, hmem, hlt, hminAll⟩ := flcn_some hm
  have hcm : alookup costs m = some cm := mem_alookup_nodup inv.nodupCosts hmem
  have hchain : ∃ L, EdgeChain g s L m cm ∧ (L ++ [m]).Nodup ∧
      ∀ x ∈ L, x ∈ processed := by
    rcases inv.entryOrigin m cm hcm with ⟨w, he, rfl⟩ |
      ⟨u, cu, w, hu, hcu, he, rfl⟩
    · exact ⟨[], .nil he, by simp, by simp⟩
    · obtain ⟨L, hL, hLn, hLP⟩ := inv.procChain u hu cu hcu
      have hmnot : m ∉ L ++ [u] := by
        intro hmem2
        rcases List.mem_append.mp hmem2 with h2 | h2
        · exact hmp (hLP m h2)
        · obtain rfl : m = u := by simpa using h2
          exact hmp hu
      refine ⟨L ++ [u], chain_snoc hL he, ?_, ?_⟩
      · refine List.Nodup.append hLn (List.nodup_singleton m) ?_
        intro x hx hx2
        obtain rfl : x = m := by simpa using hx2
        exact hmnot hx
      · intro x hx
        rcases List.mem_append.mp hx with h2 | h2
        · exact hLP x h2
        · obtain rfl : x = u := by simpa using h2
          exact hu
  obtain ⟨L, hL, hLn, hLP⟩ := hchain
  have hTW : cm ≤ totalWeight g := chain_le_totalWeight hw hL hLn
  have hpath : PathCost g s m cm := inv.entryPath m cm hcm
  have hmin : ∀ c', PathCost g s m c' → cm ≤ c' := by
    intro c' hp
    rcases path_decompose hw (fun x => x ∈ processed) hp with hin |
      ⟨u, c₁, hu, hpre, hle⟩
    · obtain ⟨c'', hc'', hle2⟩ := Inv_covering inv m c' hin
      rw [hcm] at hc''
      obtain rfl : c'' = cm := by simpa using hc''.symm
      exact hle2
    · obtain ⟨cu', hcu', hle2⟩ := Inv_covering inv u c₁ hpre
      have h3 : cm ≤ cu' := hminAll (u, cu') (alookup_eq_some_mem hcu') hu
      omega
  exact ⟨cm, hcm, hmp, hlt, ⟨hpath, hmin⟩, hTW, hminAll, L, hL, hLn, hLP⟩

/-! ### Characterizing one loop step -/

theorem dstep_done_of {g : NodeGraph K} {costs : HMap K Int}
    {parents : HMap K K} {processed : List K}
    (hm : find_lowest_cost_node costs processed = none) :
    dstep g costs parents processed = .done costs := by
  unfold dstep
  rw [hm]

theorem dstep_fail_of {g : NodeGraph K} {costs : HMap K Int}
    {parents : HMap K K} {processed : List K} {m : K}
    (hm : find_lowest_cost_node costs processed = some m)
    (hg : alookup g m = none) :
    dstep g costs parents processed = .fail := by
  simp only [dstep, hm, hg]

theorem dstep_next_of {g : NodeGraph K} {costs : HMap K Int}
    {parents : HMap K K} {processed : List K} {m : K} {nbrs : HMap K Int}
    (hm : find_lowest_cost_node costs processed = some m)
    (hg : alookup g m = some nbrs) :
    dstep g costs parents processed =
      .next (relaxNeighbors m ((alookup costs m).getD 0) nbrs costs parents).1
        (relaxNeighbors m ((alookup costs m).getD 0) nbrs costs parents).2
        (m :: processed) := by
  simp only [dstep, hm, hg]

/-- One loop iteration preserves the invariant, never changes the entries of
already-processed nodes, and marks exactly one fresh node processed. -/
theorem Inv_step {g : NodeGraph K} {s : K} {costs costs' : HMap K Int}
    {parents parents' : HMap K K} {processed processed' : List K}
    (hw : nonnegWeights g) (hb : totalWeight g < 1073741824)
    (inv : Inv g s costs processed)
    (hstep : dstep g costs parents processed
      = .next costs' parents' processed') :
    Inv g s costs' processed' ∧
    (∀ v ∈ processed, alookup costs' v = alookup costs v) ∧
    ∃ m, processed' = m :: processed ∧ m ∉ processed := by
  cases hm : find_lowest_cost_node costs processed with
  | none =>
      rw [dstep_done_of hm] at hstep
      exact absurd hstep (by simp)
  | some m =>
  cases hg : alookup g m with
  | none =>
      rw [dstep_fail_of hm hg] at hstep
      exact absurd hstep (by simp)
  | some nbrs =>
  obtain ⟨cm, hcm, hmp, hcmlt, hmMin, hmTW, hminAll, Lm, hLm, hLmN, hLmP⟩ :=
    Inv_selection hw inv hm
  rw [dstep_next_of hm hg, hcm] at hstep
  simp only [Option.getD_some] at hstep
  injection hstep with h1 h2 h3
  subst h1
  subst h2
  subst h3
  set cN := (relaxNeighbors m cm nbrs costs parents).1 with hCN
  have hedge_nbrs : ∀ v w, (v, w) ∈ nbrs → edgeMem g m v w :=
    fun v w h => ⟨nbrs, hg, h⟩
  have hmem_nbrs : ∀ v w, edgeMem g m v w → (v, w) ∈ nbrs := by
    rintro v w ⟨adj₀, ha, hmem⟩
    rw [hg] at ha
    obtain rfl : nbrs = adj₀ := by simpa using ha
    exact hmem
  have hcm0 : 0 ≤ cm := path_nonneg hw (inv.entryPath m cm hcm)
  have hwrap : ∀ {v w}, (v, w) ∈ nbrs →
      wrap32 (cm + w) = cm + w ∧ cm + w < i32Max ∧ 0 ≤ w := by
    intro v w hmem
    have h0 : 0 ≤ w := edge_nonneg hw (hedge_nbrs v w hmem)
    have h1 : w ≤ totalWeight g := edge_le_totalWeight hw (hedge_nbrs v w hmem)
    refine ⟨wrap32_eq (by omega) (by omega), ?_, h0⟩
    unfold i32Max
    omega
  -- restate the relaxation lemmas for the concrete new costs table
  have relaxPreserve : ∀ {v cv}, alookup costs v = some cv →
      (∀ w, (v, w) ∈ nbrs → ¬ wrap32 (cm + w) < cv) →
      alookup cN v = some cv :=
    fun h hk => relax_preserve m cm h hk
  have relaxMono : ∀ {v cv}, alookup costs v = some cv →
      ∃ cv', alookup cN v = some cv' ∧ cv' ≤ cv :=
    fun h => relax_mono m cm nbrs parents h
  have relaxOrigin : ∀ {v c}, alookup cN v = some c →
      alookup costs v = some c ∨
      ∃ w, (v, w) ∈ nbrs ∧ (c = wrap32 (cm + w) ∨
        (c = i32Max ∧ ¬ wrap32 (cm + w) < i32Max)) :=
    fun h => relax_origin m cm h
  have relaxEdge : ∀ {v w}, (v, w) ∈ nbrs →
      ∃ c', alookup cN v = some c' ∧ c' ≤ wrap32 (cm + w) :=
    fun h => relax_after_edge m cm h
  -- processed entries (and the entry of m) survive unchanged
  have hpres : ∀ v ∈ processed, alookup cN v = alookup costs v := by
    intro v hv
    obtain ⟨cv, hcv⟩ := inv.procKeys v hv
    have hvm : cv ≤ cm := inv.procMin v hv cv hcv m hmp cm hcm
    rw [hcv]
    refine relaxPreserve hcv ?_
    intro w hwmem
    obtain ⟨he, _, h0⟩ := hwrap hwmem
    rw [he]
    omega
  have hpresM : alookup cN m = some cm := by
    refine relaxPreserve hcm ?_
    intro w hwmem
    obtain ⟨he, _, h0⟩ := hwrap hwmem
    rw [he]
    omega
  -- the Max-sentinel branch of `relax_origin` is impossible here
  have hnomax : ∀ {v c w}, (v, w) ∈ nbrs →
      c = i32Max → ¬ wrap32 (cm + w) < i32Max → False := by
    intro v c w hwmem _ hnot
    obtain ⟨he, hlt2, _⟩ := hwrap hwmem
    rw [he] at hnot
    omega
  refine ⟨⟨?_, ?_, ?_, ?_, ?_, ?_, ?_, ?_, ?_, ?_, ?_, ?_⟩, hpres,
    m, rfl, hmp⟩
  · -- nodupCosts
    exact relax_nodup m cm nbrs parents inv.nodupCosts
  · -- nodupProc
    exact List.nodup_cons.mpr ⟨hmp, inv.nodupProc⟩
  · -- procKeys
    intro v hv
    rcases List.mem_cons.mp hv with rfl | hv2
    · exact ⟨cm, hpresM⟩
    · obtain ⟨cv, hcv⟩ := inv.procKeys v hv2
      exact ⟨cv, by rw [hpres v hv2]; exact hcv⟩
  · -- entryPath
    intro v c h
    rcases relaxOrigin h with hold | ⟨w, hwmem, hc⟩
    · exact inv.entryPath v c hold
    · rcases hc with rfl | ⟨rfl, hnot⟩
      · rw [(hwrap hwmem).1]
        exact PathThrough.snoc (inv.entryPath m cm hcm) trivial
          (hedge_nbrs _ _ hwmem)
      · exact (hnomax hwmem rfl hnot).elim
  · -- entryLt
    intro v c h
    rcases relaxOrigin h with hold | ⟨w, hwmem, hc⟩
    · exact inv.entryLt v c hold
    · rcases hc with rfl | ⟨rfl, hnot⟩
      · rw [(hwrap hwmem).1]
        exact (hwrap hwmem).2.1
      · exact (hnomax hwmem rfl hnot).elim
  · -- procDist
    intro v hv c h
    rcases List.mem_cons.mp hv with rfl | hv2
    · rw [hpresM] at h
      obtain rfl : cm = c := by simpa using h
      exact hmMin
    · rw [hpres v hv2] at h
      exact inv.procDist v hv2 c h
  · -- entryOrigin
    intro v c h
    rcases relaxOrigin h with hold | ⟨w, hwmem, hc⟩
    · rcases inv.entryOrigin v c hold with ⟨w, he, rfl⟩ |
        ⟨u, cu, w, hu, hcu, he, rfl⟩
      · exact Or.inl ⟨c, he, rfl⟩
      · exact Or.inr ⟨u, cu, w, List.mem_cons_of_mem _ hu,
          by rw [hpres u hu]; exact hcu, he, rfl⟩
    · rcases hc with rfl | ⟨rfl, hnot⟩
      · exact Or.inr ⟨m, cm, w, List.mem_cons_self .., hpresM,
          hedge_nbrs _ _ hwmem, (hwrap hwmem).1⟩
      · exact (hnomax hwmem rfl hnot).elim
  · -- procChain
    intro v hv c h
    rcases List.mem_cons.mp hv with rfl | hv2
    · rw [hpresM] at h
      obtain rfl : cm = c := by simpa using h
      exact ⟨Lm, hLm, hLmN, fun x hx => List.mem_cons_of_mem _ (hLmP x hx)⟩
    · rw [hpres v hv2] at h
      obtain ⟨L, hL, hLn, hLP⟩ := inv.procChain v hv2 c h
      exact ⟨L, hL, hLn, fun x hx => List.mem_cons_of_mem _ (hLP x hx)⟩
  · -- procRelaxed
    intro u hu cu hcu v w he
    rcases List.mem_cons.mp hu with rfl | hu2
    · rw [hpresM] at hcu
      obtain rfl : cm = cu := by simpa using hcu
      have hwmem := hmem_nbrs v w he
      obtain ⟨cv, hcv, hle⟩ := relaxEdge hwmem
      rw [(hwrap hwmem).1] at hle
      exact ⟨cv, hcv, hle⟩
    · rw [hpres u hu2] at hcu
      obtain ⟨cv, hcv, hle⟩ := inv.procRelaxed u hu2 cu hcu v w he
      obtain ⟨cv', hcv', hle'⟩ := relaxMono hcv
      exact ⟨cv', hcv', by omega⟩
  · -- sEdge
    intro v w he
    obtain ⟨c, hc, hle⟩ := inv.sEdge v w he
    obtain ⟨c', hc', hle'⟩ := relaxMono hc
    exact ⟨c', hc', by omega⟩
  · -- procMin
    intro u hu cu hcu v hv cv hcv
    have hvm : v ≠ m := fun h => hv (h ▸ List.mem_cons_self ..)
    have hvp : v ∉ processed := fun h => hv (List.mem_cons_of_mem _ h)
    have hcu_le_cm : cu ≤ cm := by
      rcases List.mem_cons.mp hu with rfl | hu2
      · rw [hpresM] at hcu
        obtain rfl : cm = cu := by simpa using hcu
        exact le_refl cm
      · rw [hpres u hu2] at hcu
        exact inv.procMin u hu2 cu hcu m hmp cm hcm
    rcases relaxOrigin hcv with hold | ⟨w, hwmem, hc⟩
    · have h2 : cm ≤ cv := hminAll (v, cv) (alookup_eq_some_mem hold) hvp
      omega
    · rcases hc with rfl | ⟨rfl, hnot⟩
      · obtain ⟨he, _, h0⟩ := hwrap hwmem
        rw [he]
        omega
      · have hculd : cu < i32Max := by
          rcases List.mem_cons.mp hu with rfl | hu2
          · rw [hpresM] at hcu
            obtain rfl : cm = cu := by simpa using hcu
            exact hcmlt
          · rw [hpres u hu2] at hcu
            exact inv.entryLt u cu hcu
        omega
  · -- keysTargets
    intro v c h
    rcases relax_keys m cm nbrs parents v (mem_keys_of_alookup h) with
      hk | hk
    · obtain ⟨c₀, hc₀⟩ := alookup_isSome_of_mem_keys hk
      exact inv.keysTargets v c₀ hc₀
    · obtain ⟨p, hp, rfl⟩ := List.mem_map.mp hk
      exact edge_target_mem (hedge_nbrs _ _ (by simpa using hp))

/-- When `find_lowest_cost_node` finds nothing, every entry of the costs
table is a final minimal cost, and every reachable node has an entry. -/
theorem Inv_endgame {g : NodeGraph K} {s : K} {costs : HMap K Int}
    {processed : List K} (hw : nonnegWeights g)
    (inv : Inv g s costs processed)
    (hend : find_lowest_cost_node costs processed = none) :
    (∀ f c, alookup costs f = some c → IsMinCost g s f c) ∧
    (∀ f c, PathCost g s f c → ∃ c', alookup costs f = some c') := by
  have hall : ∀ v c, alookup costs v = some c → v ∈ processed := by
    intro v c h
    by_contra hv
    have h1 := flcn_none hend (v, c) (alookup_eq_some_mem h) hv
    have h2 := inv.entryLt v c h
    simp only at h1
    omega
  constructor
  · intro f c h
    exact inv.procDist f (hall f c h) c h
  · intro f c hp
    rcases path_decompose hw (fun x => x ∈ processed) hp with hin |
      ⟨u, c₁, hu, hpre, hle⟩
    · obtain ⟨c', hc', _⟩ := Inv_covering inv f c hin
      exact ⟨c', hc'⟩
    · obtain ⟨cu, hcu, _⟩ := Inv_covering inv u c₁ hpre
      exact absurd (hall u cu hcu) hu

/-! ### Inverting one loop step -/

theorem dstep_done_inv {g : NodeGraph K} {costs c : HMap K Int}
    {parents : HMap K K} {processed : List K}
    (hs : dstep g costs parents processed = .done c) :
    find_lowest_cost_node costs processed = none ∧ c = costs := by
  cases hm : find_lowest_cost_node costs processed with
  | none =>
      rw [dstep_done_of hm] at hs
      refine ⟨rfl, ?_⟩
      cases hs
      rfl
  | some m =>
      cases hg : alookup g m with
      | none =>
          rw [dstep_fail_of hm hg] at hs
          exact absurd hs (by simp)
      | some nbrs =>
          rw [dstep_next_of hm hg] at hs
          exact absurd hs (by simp)

theorem dstep_fail_inv {g : NodeGraph K} {costs : HMap K Int}
    {parents : HMap K K} {processed : List K}
    (hs : dstep g costs parents processed = .fail) :
    ∃ m, find_lowest_cost_node costs processed = some m ∧
      alookup g m = none := by
  cases hm : find_lowest_cost_node costs processed with
  | none =>
      rw [dstep_done_of hm] at hs
      exact absurd hs (by simp)
  | some m =>
      cases hg : alookup g m with
      | none => exact ⟨m, rfl, hg⟩
      | some nbrs =>
          rw [dstep_next_of hm hg] at hs
          exact absurd hs (by simp)

theorem dstep_next_inv {g : NodeGraph K} {costs c : HMap K Int}
    {parents p : HMap K K} {processed pr : List K}
    (hs : dstep g costs parents processed = .next c p pr) :
    ∃ m nbrs, find_lowest_cost_node costs processed = some m ∧
      alookup g m = some nbrs ∧
      c = (relaxNeighbors m ((alookup costs m).getD 0) nbrs costs parents).1 ∧
      pr = m :: processed := by
  cases hm : find_lowest_cost_node costs processed with
  | none =>
      rw [dstep_done_of hm] at hs
      exact absurd hs (by simp)
  | some m =>
      cases hg : alookup g m with
      | none =>
          rw [dstep_fail_of hm hg] at hs
          exact absurd hs (by simp)
      | some nbrs =>
          rw [dstep_next_of hm hg] at hs
          injection hs with h1 h2 h3
          exact ⟨m, nbrs, rfl, hg, h1.symm, h3.symm⟩

theorem dloop_succ (g : NodeGraph K) (fuel : Nat) (costs : HMap K Int)
    (parents : HMap K K) (processed : List K) :
    dloop g (fuel + 1) costs parents processed =
      match dstep g costs parents processed with
      | .done c => .ok (some c)
      | .fail => .ok none
      | .next c p pr => dloop g fuel c p pr := rfl

/-! ### Run-level lemmas -/

/-- Soundness of a completed run: from any invariant state, if the loop
exits normally then every entry of the final table is a minimal path cost. -/
theorem dloop_sound {g : NodeGraph K} {s : K}
    (hw : nonnegWeights g) (hb : totalWeight g < 1073741824) :
    ∀ fuel {costs : HMap K Int} {parents : HMap K K} {processed : List K}
      {final : HMap K Int},
      Inv g s costs processed →
      dloop g fuel costs parents processed = .ok (some final) →
      ∀ f c, alookup final f = some c → IsMinCost g s f c := by
  intro fuel
  induction fuel with
  | zero =>
      intro costs parents processed final _ h
      exact absurd h (by simp [dloop])
  | succ n ih =>
      intro costs parents processed final inv h
      rw [dloop_succ] at h
      cases hs : dstep g costs parents processed with
      | done c =>
          rw [hs] at h
          simp only at h
          obtain rfl : c = final := by
            have := h
            simp only [Except.ok.injEq, Option.some.injEq] at this
            exact this
          obtain ⟨hend, rfl⟩ := dstep_done_inv hs
          exact (Inv_endgame hw inv hend).1
      | fail =>
          rw [hs] at h
          exact absurd h (by simp)
      | next c p pr =>
          rw [hs] at h
          obtain ⟨inv', _, _⟩ := Inv_step hw hb inv hs
          exact ih inv' h

/-- Reachability of every key of the final table, with no hypotheses on the
graph: a successful run only ever records reachable nodes. -/
theorem dloop_reach {g : NodeGraph K} {s : K} :
    ∀ fuel {costs : HMap K Int} {parents : HMap K K} {processed : List K}
      {final : HMap K Int},
      (∀ v c, alookup costs v = some c → ∃ cc, PathCost g s v cc) →
      dloop g fuel costs parents processed = .ok (some final) →
      ∀ f c, alookup final f = some c → ∃ cc, PathCost g s f cc := by
  intro fuel
  induction fuel with
  | zero =>
      intro costs parents processed final _ h
      exact absurd h (by simp [dloop])
  | succ n ih =>
      intro costs parents processed final hlight h
      rw [dloop_succ] at h
      cases hs : dstep g costs parents processed with
      | done c =>
          rw [hs] at h
          obtain rfl : c = final := by
            simp only [Except.ok.injEq, Option.some.injEq] at h
            exact h
          obtain ⟨_, rfl⟩ := dstep_done_inv hs
          exact hlight
      | fail =>
          rw [hs] at h
          exact absurd h (by simp)
      | next c p pr =>
          rw [hs] at h
          obtain ⟨m, nbrs, hm, hg, rfl, rfl⟩ := dstep_next_inv hs
          refine ih ?_ h
          intro v cv hcv
          rcases relax_origin m ((alookup costs m).getD 0) hcv with hold |
            ⟨w, hwmem, _⟩
          · exact hlight v cv hold
          · obtain ⟨hmpr, cm0, hmem, _, _⟩ := flcn_some hm
            obtain ⟨c₀, hc₀⟩ := alookup_isSome_of_mem_keys
              (List.mem_map.mpr ⟨(m, cm0), hmem, rfl⟩)
            obtain ⟨cc, hcc⟩ := hlight m c₀ hc₀
            exact ⟨cc + w, .snoc hcc trivial ⟨nbrs, hg, hwmem⟩⟩

theorem nodup_length_le_dedup {l₁ l₂ : List K} (h1 : l₁.Nodup)
    (h2 : ∀ x ∈ l₁, x ∈ l₂) : l₁.length ≤ l₂.dedup.length := by
  have h3 : l₁.toFinset.card = l₁.length := List.toFinset_card_of_nodup h1
  have h4 : l₁.toFinset ⊆ l₂.toFinset :=
    fun x hx => List.mem_toFinset.mpr (h2 x (List.mem_toFinset.mp hx))
  have h5 := Finset.card_le_card h4
  rw [List.card_toFinset, List.card_toFinset] at h5
  rw [List.card_toFinset] at h3
  omega

/-- Termination: with fuel exceeding the number of distinct edge targets not
yet processed, the loop never exhausts its fuel. -/
theorem dloop_no_error {g : NodeGraph K} :
    ∀ fuel {costs : HMap K Int} {parents : HMap K K} {processed : List K},
      processed.Nodup →
      (∀ v ∈ processed, v ∈ targetsList g) →
      (∀ v ∈ costs.map Prod.fst, v ∈ targetsList g) →
      (targetsList g).dedup.length + 1 ≤ fuel + processed.length →
      dloop g fuel costs parents processed ≠ .error () := by
  intro fuel
  induction fuel with
  | zero =>
      intro costs parents processed h1 h2 _ h4 _
      have h5 := nodup_length_le_dedup h1 h2
      omega
  | succ n ih =>
      intro costs parents processed h1 h2 h3 h4
      rw [dloop_succ]
      cases hs : dstep g costs parents processed with
      | done c => simp
      | fail => simp
      | next c p pr =>
          obtain ⟨m, nbrs, hm, hg, rfl, rfl⟩ := dstep_next_inv hs
          obtain ⟨hmpr, cm0, hmem, _, _⟩ := flcn_some hm
          have hmk : m ∈ costs.map Prod.fst :=
            List.mem_map.mpr ⟨(m, cm0), hmem, rfl⟩
          refine ih (List.nodup_cons.mpr ⟨hmpr, h1⟩) ?_ ?_ ?_
          · intro v hv
            rcases List.mem_cons.mp hv with rfl | hv2
            · exact h3 v hmk
            · exact h2 v hv2
          · intro v hv
            rcases relax_keys m ((alookup costs m).getD 0) nbrs parents v hv
              with hk | hk
            · exact h3 v hk
            · obtain ⟨pq, hpq, rfl⟩ := List.mem_map.mp hk
              exact edge_target_mem ⟨nbrs, hg, by simpa using hpq⟩
          · simp only [List.length_cons]
            omega

/-- Completed run: from an invariant state, with enough fuel and a graph
closed under reachability from `s`, the loop exits normally with a final
table that is sound and complete for shortest distances. -/
theorem dloop_complete {g : NodeGraph K} {s : K}
    (hw : nonnegWeights g) (hb : totalWeight g < 1073741824)
    (hcl : closedFrom g s) :
    ∀ fuel {costs : HMap K Int} {parents : HMap K K} {processed : List K},
      Inv g s costs processed →
      (targetsList g).dedup.length + 1 ≤ fuel + processed.length →
      ∃ final, dloop g fuel costs parents processed = .ok (some final) ∧
        (∀ f c, alookup final f = some c → IsMinCost g s f c) ∧
        (∀ f c, PathCost g s f c → ∃ c', alookup final f = some c') := by
  intro fuel
  induction fuel with
  | zero =>
      intro costs parents processed inv h4
      have h2 : ∀ v ∈ processed, v ∈ targetsList g := by
        intro v hv
        obtain ⟨cv, hcv⟩ := inv.procKeys v hv
        exact inv.keysTargets v cv hcv
      have h5 := nodup_length_le_dedup inv.nodupProc h2
      omega
  | succ n ih =>
      intro costs parents processed inv h4
      rw [dloop_succ]
      cases hs : dstep g costs parents processed with
      | done c =>
          obtain ⟨hend, rfl⟩ := dstep_done_inv hs
          obtain ⟨hsound, hcompl⟩ := Inv_endgame hw inv hend
          exact ⟨_, rfl, hsound, hcompl⟩
      | fail =>
          obtain ⟨m, hm, hg⟩ := dstep_fail_inv hs
          obtain ⟨_, cm0, hmem, _, _⟩ := flcn_some hm
          obtain ⟨c₀, hc₀⟩ := alookup_isSome_of_mem_keys
            (List.mem_map.mpr ⟨(m, cm0), hmem, rfl⟩)
          have hreach : ReachableFrom g s m :=
            Or.inr ⟨c₀, inv.entryPath m c₀ hc₀⟩
          have := hcl m hreach
          rw [hg] at this
          exact absurd this (by simp)
      | next c p pr =>
          obtain ⟨inv', _, m, hpr, _⟩ := Inv_step hw hb inv hs
          subst hpr
          refine ih inv' ?_
          simp only [List.length_cons]
          omega

/-! ### Master theorems about `dejkstras_alg` -/

theorem dedup_le_dfuel (g : NodeGraph K) :
    (targetsList g).dedup.length + 1 ≤ dfuel g := by
  have h := List.Sublist.length_le (List.dedup_sublist (targetsList g))
  unfold dfuel
  omega

/-- Soundness and optimality: under a `HashMap`-well-formed representation,
non-negative weights and no possible `i32` overflow, a returned cost is the
minimum path cost from `start` to `finish`. -/
theorem dejkstras_alg_sound {g : NodeGraph K} {s f : K} {c : Int}
    (hwf : graphWF g) (hw : nonnegWeights g)
    (hb : totalWeight g < 1073741824)
    (h : dejkstras_alg g s f = some c) : IsMinCost g s f c := by
  unfold dejkstras_alg at h
  cases hs : alookup g s with
  | none => rw [hs] at h; simp at h
  | some adj =>
      rw [hs] at h
      simp only at h
      cases hrun : dloop g (dfuel g) adj [] [] with
      | error e => rw [hrun] at h; simp at h
      | ok r =>
          cases r with
          | none => rw [hrun] at h; simp at h
          | some final =>
              rw [hrun] at h
              simp only at h
              exact dloop_sound hw hb (dfuel g) (Inv_init hwf hw hb hs) hrun
                f c h

/-- Completeness: when some path from `start` to `finish` exists, the call
returns the minimum path cost. -/
theorem dejkstras_alg_complete {g : NodeGraph K} {s f : K} {c₀ : Int}
    (hwf : graphWF g) (hw : nonnegWeights g)
    (hb : totalWeight g < 1073741824) (hcl : closedFrom g s)
    (hp : PathCost g s f c₀) :
    ∃ c, dejkstras_alg g s f = some c ∧ IsMinCost g s f c := by
  obtain ⟨adj, hs⟩ : ∃ adj, alookup g s = some adj := by
    have h1 := hcl s (Or.inl rfl)
    cases h : alookup g s with
    | none => rw [h] at h1; exact absurd h1 (by simp)
    | some adj => exact ⟨adj, rfl⟩
  obtain ⟨final, hrun, hsound, hcompl⟩ := dloop_complete hw hb hcl (dfuel g)
    (Inv_init hwf hw hb hs) (by have := dedup_le_dfuel g; omega)
  obtain ⟨c, hc⟩ := hcompl f c₀ hp
  refine ⟨c, ?_, hsound f c hc⟩
  simp only [dejkstras_alg, hs]
  rw [hrun]
  exact hc

/-- With no hypotheses at all on the graph: a present result implies that
`finish` is reachable from `start` by a nonempty path. -/
theorem dejkstras_alg_reach {g : NodeGraph K} {s f : K} {c : Int}
    (h : dejkstras_alg g s f = some c) : ∃ cc, PathCost g s f cc := by
  unfold dejkstras_alg at h
  cases hs : alookup g s with
  | none => rw [hs] at h; simp at h
  | some adj =>
      rw [hs] at h
      simp only at h
      cases hrun : dloop g (dfuel g) adj [] [] with
      | error e => rw [hrun] at h; simp at h
      | ok r =>
          cases r with
          | none => rw [hrun] at h; simp at h
          | some final =>
              rw [hrun] at h
              simp only at h
              refine dloop_reach (dfuel g) ?_ hrun f c h
              intro v c' h'
              exact ⟨c', .single ⟨adj, hs, alookup_eq_some_mem h'⟩⟩

/-- Every state a run passes through satisfies the invariant. -/
theorem Reaches_inv {g : NodeGraph K} {s : K} {costs : HMap K Int}
    {parents : HMap K K} {processed : List K}
    (hwf : graphWF g) (hw : nonnegWeights g)
    (hb : totalWeight g < 1073741824)
    (h : Reaches g s costs parents processed) : Inv g s costs processed := by
  induction h with
  | init adj hs => exact Inv_init hwf hw hb hs
  | step hR hs ih => exact (Inv_step hw hb ih hs).1

/-- When no edge of the graph points at `s`, no state of a run ever has `s`
as a key of the costs table. -/
theorem Reaches_no_start_entry {g : NodeGraph K} {s : K} {costs : HMap K Int}
    {parents : HMap K K} {processed : List K}
    (hne : noEdgeInto g s) (h : Reaches g s costs parents processed) :
    alookup costs s = none := by
  induction h with
  | init adj hs =>
      cases hlook : alookup adj s with
      | none => rfl
      | some c =>
          exact absurd rfl
            (hne (s, adj) (alookup_eq_some_mem hs) (s, c)
              (alookup_eq_some_mem hlook))
  | step hR hs ih =>
      obtain ⟨m, nbrs, hm, hg, rfl, rfl⟩ := dstep_next_inv hs
      rename_i costs₀ parents₀ processed₀ p
      cases hlook : alookup (relaxNeighbors m ((alookup costs₀ m).getD 0)
          nbrs costs₀ parents₀).1 s with
      | none => rfl
      | some c =>
          rcases relax_origin m ((alookup costs₀ m).getD 0) hlook with hold |
            ⟨w, hwmem, _⟩
          · rw [ih] at hold
            exact absurd hold (by simp)
          · exact absurd rfl
              (hne (m, nbrs) (alookup_eq_some_mem hg) (s, w) hwmem)

/-! ### Lemmas about `addEdge` -/

theorem keys_ainsert_of_some {l : HMap K V} {k : K} {x : V} (y : V)
    (h : alookup l k = some x) :
    (ainsert l k y).map Prod.fst = l.map Prod.fst := by
  induction l with
  | nil => simp [alookup] at h
  | cons p rest ih =>
      obtain ⟨k₀, a⟩ := p
      by_cases hk : k = k₀
      · subst hk
        simp [ainsert]
      · simp only [alookup, if_neg hk] at h
        simp [ainsert, if_neg hk, ih h]

theorem mem_ainsert_cases {l : HMap K V} (k : K) (y : V) {e : K × V}
    (he : e ∈ l) :
    e ∈ ainsert l k y ∨ (e.1 = k ∧ alookup l k = some e.2) := by
  induction l with
  | nil => simp at he
  | cons p rest ih =>
      obtain ⟨k₀, a⟩ := p
      by_cases hk : k = k₀
      · subst hk
        rcases List.mem_cons.mp he with rfl | he2
        · exact Or.inr ⟨rfl, by simp [alookup]⟩
        · exact Or.inl (by simp [ainsert]; exact Or.inr he2)
      · rcases List.mem_cons.mp he with rfl | he2
        · exact Or.inl (by simp [ainsert, if_neg hk])
        · rcases ih he2 with h | ⟨h1, h2⟩
          · exact Or.inl (by simp only [ainsert, if_neg hk]; exact List.mem_cons_of_mem _ h)
          · exact Or.inr ⟨h1, by simp only [alookup, if_neg hk]; exact h2⟩

theorem edgeMem_addEdge {g : NodeGraph K} {u v a b : K} {w w₀ : Int}
    (h : edgeMem g a b w₀) : edgeMem (addEdge g u v w) a b w₀ := by
  obtain ⟨adjA, ha, hm⟩ := h
  unfold addEdge
  cases hu : alookup g u with
  | none => exact ⟨adjA, alookup_append_left ha, hm⟩
  | some adj =>
      by_cases hau : a = u
      · subst hau
        rw [hu] at ha
        obtain rfl : adj = adjA := by simpa using ha
        exact ⟨adj ++ [(v, w)], alookup_ainsert_self .., List.mem_append_left _ hm⟩
      · exact ⟨adjA, by rw [alookup_ainsert_ne _ _ hau]; exact ha, hm⟩

theorem edgeMem_addEdge_self (g : NodeGraph K) (u v : K) (w : Int) :
    edgeMem (addEdge g u v w) u v w := by
  unfold addEdge
  cases hu : alookup g u with
  | none =>
      refine ⟨[(v, w)], ?_, by simp⟩
      rw [alookup_append_right hu]
      simp [alookup]
  | some adj =>
      exact ⟨adj ++ [(v, w)], alookup_ainsert_self .., by simp⟩

theorem pathCost_addEdge {g : NodeGraph K} {u v a b : K} {w c : Int}
    (h : PathCost g a b c) : PathCost (addEdge g u v w) a b c := by
  induction h with
  | single he => exact .single (edgeMem_addEdge he)
  | snoc p hP he ih => exact .snoc ih trivial (edgeMem_addEdge he)

theorem graphWF_addEdge {g : NodeGraph K} {u v : K} {w : Int}
    (h : graphWF (addEdge g u v w)) : graphWF g := by
  unfold addEdge at h
  cases hu : alookup g u with
  | none =>
      rw [hu] at h
      constructor
      · have h1 := h.1
        rw [List.map_append] at h1
        exact h1.of_append_left
      · exact fun e he => h.2 e (List.mem_append_left _ he)
  | some adj =>
      rw [hu] at h
      have hkeys := keys_ainsert_of_some (adj ++ [(v, w)]) hu
      have hnk : (g.map Prod.fst).Nodup := by rw [← hkeys]; exact h.1
      refine ⟨hnk, ?_⟩
      intro e he
      rcases mem_ainsert_cases u (adj ++ [(v, w)]) he with
        hmem | ⟨h1, h2⟩
      · exact h.2 e hmem
      · rw [hu] at h2
        obtain h3 : adj = e.2 := by simpa using h2
        have h4 := h.2 (u, adj ++ [(v, w)])
          (alookup_eq_some_mem (alookup_ainsert_self g u (adj ++ [(v, w)])))
        rw [List.map_append] at h4
        rw [← h3]
        exact h4.of_append_left

theorem nonneg_addEdge {g : NodeGraph K} {u v : K} {w : Int}
    (h : nonnegWeights (addEdge g u v w)) : nonnegWeights g := by
  unfold addEdge at h
  cases hu : alookup g u with
  | none =>
      rw [hu] at h
      exact fun e he p hp => h e (List.mem_append_left _ he) p hp
  | some adj =>
      rw [hu] at h
      intro e he p hp
      rcases mem_ainsert_cases u (adj ++ [(v, w)]) he with
        hmem | ⟨h1, h2⟩
      · exact h e hmem p hp
      · rw [hu] at h2
        obtain h3 : adj = e.2 := by simpa using h2
        exact h (u, adj ++ [(v, w)])
          (alookup_eq_some_mem (alookup_ainsert_self g u (adj ++ [(v, w)])))
          p (List.mem_append_left _ (h3 ▸ hp))

theorem totalWeight_ainsert_append {g : NodeGraph K} {u v : K} {w : Int}
    {adj : HMap K Int} (hu : alookup g u = some adj) :
    totalWeight (ainsert g u (adj ++ [(v, w)])) = totalWeight g + w := by
  induction g with
  | nil => simp [alookup] at hu
  | cons e rest ih =>
      obtain ⟨k₀, a⟩ := e
      by_cases hk : u = k₀
      · subst hk
        obtain rfl : a = adj := by simpa [alookup] using hu
        simp only [ainsert, if_pos rfl, totalWeight, List.map_cons,
          List.sum_cons, adjWeight, List.map_append, List.sum_append]
        simp
        omega
      · simp only [alookup, if_neg hk] at hu
        simp only [ainsert, if_neg hk, totalWeight, List.map_cons,
          List.sum_cons]
        have := ih hu
        unfold totalWeight at this
        omega

theorem totalWeight_addEdge {g : NodeGraph K} (u v : K) (w : Int) :
    totalWeight (addEdge g u v w) = totalWeight g + w := by
  unfold addEdge
  cases hu : alookup g u with
  | none =>
      simp only [totalWeight, List.map_append, List.sum_append]
      simp [adjWeight]
  | some adj => exact totalWeight_ainsert_append hu

/-- A decidable sufficient condition for `closedFrom`: the start node and
every edge target have an adjacency entry. -/
theorem closed_of_targets {g : NodeGraph K} {s : K}
    (h : ∀ v ∈ s :: targetsList g, (alookup g v).isSome) : closedFrom g s := by
  intro v hv
  rcases hv with rfl | ⟨c, hp⟩
  · exact h v (List.mem_cons_self ..)
  · exact h v (List.mem_cons_of_mem _ (path_target_mem hp))

instance (g : NodeGraph K) : Decidable (nonnegWeights g) :=
  inferInstanceAs (Decidable (∀ e ∈ g, ∀ p ∈ e.2, (0 : Int) ≤ p.2))

instance (g : NodeGraph K) : Decidable (graphWF g) :=
  inferInstanceAs
    (Decidable ((g.map Prod.fst).Nodup ∧ ∀ e ∈ g, (e.2.map Prod.fst).Nodup))

instance (g : NodeGraph K) (s : K) : Decidable (noEdgeInto g s) :=
  inferInstanceAs (Decidable (∀ e ∈ g, ∀ p ∈ e.2, p.1 ≠ s))

/-! ### Concrete graphs used in the claim checks (nodes are `Nat`) -/

/-- The example graph of `main` and of the first test: 0 = start, 1 = a,
2 = b, 3 = fin; built in the insertion order of the Rust code. -/
def mainGraph : NodeGraph Nat :=
  [(0, [(1, 6), (2, 2)]), (2, [(1, 3), (3, 5)]), (1, [(3, 1)]), (3, [])]

/-- Non-negative weights whose accumulated cost overflows `i32`. -/
def overflowGraph : NodeGraph Nat :=
  [(0, [(1, 2147483646)]), (1, [(2, 5)]), (2, [])]

/-- Overflow graph with a back-edge 2 → 1 of weight 0: relaxing it lowers
the already-processed entry of node 1. -/
def overflowLowerGraph : NodeGraph Nat :=
  [(0, [(1, 2147483646)]), (1, [(2, 5)]), (2, [(1, 0)])]

/-- A two-node cycle through the start node. -/
def loopGraph : NodeGraph Nat := [(0, [(1, 1)]), (1, [(0, 1)])]

/-- A graph with no edge into the start node. -/
def noInGraph : NodeGraph Nat := [(0, [(1, 1)]), (1, [])]

/-- Well-formed two-node graph with an edge 0 → 3. -/
def baseGraph : NodeGraph Nat := [(0, [(3, 5)]), (3, [])]

/-- `baseGraph` with an extra edge 0 → 1 whose target 1 has no adjacency
entry. -/
def malformedGraph : NodeGraph Nat := [(0, [(3, 5), (1, 1)]), (3, [])]

/-- A graph where node 2 is disconnected from node 0. -/
def disconnectedGraph : NodeGraph Nat := [(0, [(1, 1)]), (1, []), (2, [])]

/-- A graph whose start node has an empty adjacency map. -/
def emptyStartGraph : NodeGraph Nat := [(0, [])]

/-! ### The claims -/

/-- C1 (counterexample): with non-negative weights (2147483646 and 5) and
every node owning an adjacency entry, the `i32` addition overflows and the
call returns `some (-2147483645)`, which is not the minimum path cost (it
is not the cost of any path: all path costs are non-negative here). -/
theorem claim_C1_cex :
    nonnegWeights overflowGraph ∧
    (∀ e ∈ overflowGraph, ∀ p ∈ e.2, (alookup overflowGraph p.1).isSome) ∧
    dejkstras_alg overflowGraph 0 2 = some (-2147483645) ∧
    ¬ PathCost overflowGraph 0 2 (-2147483645) ∧
    ¬ IsMinCost overflowGraph 0 2 (-2147483645) := by
  refine ⟨by decide, by decide, by decide, ?_, ?_⟩
  · intro hp
    have h1 := path_nonneg (by decide) hp
    omega
  · intro hmin
    have h1 := path_nonneg (by decide) hmin.1
    omega

/-- C1 (amended): for every `HashMap`-representable graph with non-negative
weights in which every node reachable from `start` has an adjacency entry,
and whose total edge weight stays below `2^30` (so `i32` overflow cannot
occur), a returned value of `dejkstras_alg graph start finish` is the
minimum total edge weight over all paths from `start` to `finish`; in
particular it is less than or equal to the cost of every path. -/
theorem claim_C1 {K : Type} [DecidableEq K] {g : NodeGraph K} {s f : K}
    {c : Int} (hwf : graphWF g) (hw : nonnegWeights g)
    (hcl : closedFrom g s) (hb : totalWeight g < 1073741824)
    (h : dejkstras_alg g s f = some c) : IsMinCost g s f c :=
  dejkstras_alg_sound hwf hw hb h

/-- C1 (witness): the amended claim instantiated on the example graph. -/
theorem claim_C1_witness :
    graphWF mainGraph ∧ nonnegWeights mainGraph ∧ closedFrom mainGraph 0 ∧
    totalWeight mainGraph < 1073741824 ∧
    dejkstras_alg mainGraph 0 3 = some 6 ∧ IsMinCost mainGraph 0 3 6 := by
  have hwf : graphWF mainGraph := by decide
  have hw : nonnegWeights mainGraph := by decide
  have hcl : closedFrom mainGraph 0 := closed_of_targets (by decide)
  have hb : totalWeight mainGraph < 1073741824 := by decide
  have hres : dejkstras_alg mainGraph 0 3 = some 6 := by decide
  exact ⟨hwf, hw, hcl, hb, hres, claim_C1 hwf hw hcl hb hres⟩

/-- C2: for every graph and every start (and finish) node, the main loop of
`dejkstras_alg` terminates: run with the fuel `dfuel` the function supplies,
the loop never exhausts it (the processed set strictly grows and is bounded
by the edge targets of the graph). -/
theorem claim_C2 {K : Type} [DecidableEq K] (g : NodeGraph K)
    (s finish : K) (adj : HMap K Int) (hs : alookup g s = some adj) :
    dloop g (dfuel g) adj [] [] ≠ Except.error () := by
  apply dloop_no_error
  · exact List.nodup_nil
  · simp
  · intro v hv
    obtain ⟨c₀, hc₀⟩ := alookup_isSome_of_mem_keys hv
    exact edge_target_mem ⟨adj, hs, alookup_eq_some_mem hc₀⟩
  · have h := dedup_le_dfuel g
    simp only [List.length_nil]
    omega

/-- C2 (witness): the loop of the example run does not exhaust its fuel. -/
theorem claim_C2_witness :
    alookup mainGraph 0 = some [(1, 6), (2, 2)] ∧
    dloop mainGraph (dfuel mainGraph) [(1, 6), (2, 2)] [] []
      ≠ Except.error () :=
  ⟨by decide, claim_C2 mainGraph 0 3 [(1, 6), (2, 2)] (by decide)⟩

/-- C3: on the example graph start→a:6, start→b:2, b→a:3, b→fin:5, a→fin:1
(with an empty entry for fin; nodes encoded 0,1,2,3), the call returns
exactly 6. -/
theorem claim_C3 : dejkstras_alg mainGraph 0 3 = some 6 := by decide

/-- C4: when `start` is not a key of the graph the call returns `none`
immediately (the `?` on `graph.get(start)`). -/
theorem claim_C4 {K : Type} [DecidableEq K] (g : NodeGraph K) (s f : K)
    (h : alookup g s = none) : dejkstras_alg g s f = none := by
  simp [dejkstras_alg, h]

/-- C4 (witness): node 7 is not a key of the example graph. -/
theorem claim_C4_witness :
    alookup mainGraph 7 = none ∧ dejkstras_alg mainGraph 7 3 = none :=
  ⟨by decide, claim_C4 mainGraph 7 3 (by decide)⟩

/-- C5: if the selected lowest-cost unprocessed node has no adjacency entry
in the graph, the loop aborts the whole query with the absent result
(`Except.ok none`), and that outcome propagates to a `none` return of
`dejkstras_alg`. -/
theorem claim_C5 {K : Type} [DecidableEq K] (g : NodeGraph K) :
    (∀ (costs : HMap K Int) (parents : HMap K K) (processed : List K)
      (fuel : Nat) (node : K),
      find_lowest_cost_node costs processed = some node →
      alookup g node = none →
      dloop g (fuel + 1) costs parents processed = Except.ok none) ∧
    (∀ (s f : K) (adj : HMap K Int), alookup g s = some adj →
      dloop g (dfuel g) adj [] [] = Except.ok none →
      dejkstras_alg g s f = none) := by
  constructor
  · intro costs parents processed fuel node h1 h2
    rw [dloop_succ, dstep_fail_of h1 h2]
  · intro s f adj hs hrun
    simp only [dejkstras_alg, hs]
    rw [hrun]

/-- C5 (witness): in `malformedGraph` the first selected node is 1 (cost 1),
which has no adjacency entry; the query aborts with `none`. -/
theorem claim_C5_witness :
    find_lowest_cost_node [((3 : Nat), (5 : Int)), (1, 1)] [] = some 1 ∧
    alookup malformedGraph 1 = none ∧
    dloop malformedGraph 1 [(3, 5), (1, 1)] [] [] = Except.ok none ∧
    alookup malformedGraph 0 = some [(3, 5), (1, 1)] ∧
    dejkstras_alg malformedGraph 0 3 = none := by
  refine ⟨by decide, by decide,
    (claim_C5 malformedGraph).1 _ _ _ 0 1 (by decide) (by decide),
    by decide,
    (claim_C5 malformedGraph).2 0 3 [(3, 5), (1, 1)] (by decide) (by rfl)⟩

/-- C6: for a graph closed under reachability from a known `start`, if no
path from `start` to `finish` exists the call returns `none` (the normal
"no path" outcome, not an error). -/
theorem claim_C6 {K : Type} [DecidableEq K] {g : NodeGraph K} {s f : K}
    (hcl : closedFrom g s) (hs : (alookup g s).isSome)
    (hnp : ¬ ∃ c, PathCost g s f c) : dejkstras_alg g s f = none := by
  cases h : dejkstras_alg g s f with
  | none => rfl
  | some c => exact absurd (dejkstras_alg_reach h) hnp

/-- C6 (witness): node 2 of `disconnectedGraph` is unreachable from 0. -/
theorem claim_C6_witness :
    closedFrom disconnectedGraph 0 ∧ (alookup disconnectedGraph 0).isSome ∧
    ¬ (∃ c, PathCost disconnectedGraph 0 2 c) ∧
    dejkstras_alg disconnectedGraph 0 2 = none := by
  have hcl : closedFrom disconnectedGraph 0 := closed_of_targets (by decide)
  have hnp : ¬ ∃ c, PathCost disconnectedGraph 0 2 c := by
    rintro ⟨c, hp⟩
    have h1 := path_target_mem hp
    have h2 : (2 : Nat) ∉ targetsList disconnectedGraph := by decide
    exact h2 h1
  exact ⟨hcl, by decide, hnp, claim_C6 hcl (by decide) hnp⟩

/-- C7 (counterexample): non-negative weights alone do not keep processed
entries frozen: after processing node 1 (cost 2147483646), relaxing the
0-weight edge 2 → 1 computes the wrapped-around sum `-2147483645`, which is
below 2147483646, so the entry of the processed node 1 is overwritten. -/
theorem claim_C7_cex :
    nonnegWeights overflowLowerGraph ∧
    Reaches overflowLowerGraph 0 [(1, 2147483646), (2, -2147483645)]
      [(2, 1)] [1] ∧
    alookup [((1 : Nat), (2147483646 : Int)), (2, -2147483645)] 1
      = some 2147483646 ∧
    dstep overflowLowerGraph [(1, 2147483646), (2, -2147483645)] [(2, 1)] [1]
      = StepRes.next [(1, -2147483645), (2, -2147483645)] [(2, 1), (1, 2)]
          [2, 1] ∧
    alookup [((1 : Nat), (-2147483645 : Int)), (2, -2147483645)] 1
      = some (-2147483645) := by
  exact ⟨by decide,
    Reaches.step (Reaches.init [(1, 2147483646)] (by decide)) (by decide),
    by decide, by decide, by decide⟩

/-- C7 (amended): with non-negative weights and a total weight below `2^30`
(no `i32` overflow), at every state a run of `dejkstras_alg` reaches, one
further loop iteration never changes the cost entry of an
already-processed node. -/
theorem claim_C7 {K : Type} [DecidableEq K] {g : NodeGraph K} {s : K}
    {costs costs2 : HMap K Int} {parents parents2 : HMap K K}
    {processed processed2 : List K}
    (hwf : graphWF g) (hw : nonnegWeights g)
    (hb : totalWeight g < 1073741824)
    (hR : Reaches g s costs parents processed)
    (hstep : dstep g costs parents processed
      = .next costs2 parents2 processed2) :
    ∀ v ∈ processed, alookup costs2 v = alookup costs v := by
  have inv := Reaches_inv hwf hw hb hR
  exact (Inv_step hw hb inv hstep).2.1

/-- C7 (witness): one step of the example run keeps the entry of the
processed node 2 unchanged. -/
theorem claim_C7_witness :
    graphWF mainGraph ∧ nonnegWeights mainGraph ∧
    totalWeight mainGraph < 1073741824 ∧
    Reaches mainGraph 0 [(1, 5), (2, 2), (3, 7)] [(1, 2), (3, 2)] [2] ∧
    dstep mainGraph [(1, 5), (2, 2), (3, 7)] [(1, 2), (3, 2)] [2]
      = StepRes.next [(1, 5), (2, 2), (3, 6)] [(1, 2), (3, 1)] [1, 2] ∧
    alookup [((1 : Nat), (5 : Int)), (2, 2), (3, 6)] 2
      = alookup [((1 : Nat), (5 : Int)), (2, 2), (3, 7)] 2 := by
  have hR : Reaches mainGraph 0 [(1, 5), (2, 2), (3, 7)]
      [(1, 2), (3, 2)] [2] :=
    Reaches.step (Reaches.init [(1, 6), (2, 2)] (by decide)) (by decide)
  have hstep : dstep mainGraph [(1, 5), (2, 2), (3, 7)] [(1, 2), (3, 2)] [2]
      = StepRes.next [(1, 5), (2, 2), (3, 6)] [(1, 2), (3, 1)] [1, 2] := by
    decide
  exact ⟨by decide, by decide, by decide, hR, hstep,
    claim_C7 (by decide) (by decide) (by decide) hR hstep 2 (by decide)⟩

/-- C8 (counterexample): the start node can appear as a key of the costs
table: in the two-node cycle 0 → 1 → 0 the run reaches a state whose costs
table binds the start node 0 to 2, and `dejkstras_alg loopGraph 0 0`
returns `some 2` by looking the start node up in the final costs table. -/
theorem claim_C8_cex :
    Reaches loopGraph 0 [(1, 1), (0, 2)] [(0, 1)] [1] ∧
    alookup [((1 : Nat), (1 : Int)), (0, 2)] 0 = some 2 ∧
    dejkstras_alg loopGraph 0 0 = some 2 :=
  ⟨Reaches.step (Reaches.init [(1, 1)] (by decide)) (by decide),
    by decide, by decide⟩

/-- C8 (amended): when no edge of the graph points at `start` (in
particular no self-loop), the `start` node never appears as a key of the
costs table at any state a run reaches. -/
theorem claim_C8 {K : Type} [DecidableEq K] {g : NodeGraph K} {s : K}
    {costs : HMap K Int} {parents : HMap K K} {processed : List K}
    (hne : noEdgeInto g s) (hR : Reaches g s costs parents processed) :
    alookup costs s = none :=
  Reaches_no_start_entry hne hR

/-- C8 (witness): a reached state of the edge-free-into-start graph. -/
theorem claim_C8_witness :
    noEdgeInto noInGraph 0 ∧ Reaches noInGraph 0 [(1, 1)] [] [1] ∧
    alookup [((1 : Nat), (1 : Int))] 0 = none := by
  have hne : noEdgeInto noInGraph 0 := by decide
  have hR : Reaches noInGraph 0 [(1, 1)] [] [1] :=
    Reaches.step (Reaches.init [(1, 1)] (by decide)) (by decide)
  exact ⟨hne, hR, claim_C8 hne hR⟩

/-- C9 (counterexample): adding one new edge can flip a present result to
an absent one: `baseGraph` (non-negative weights) yields `some 5` for
0 → 3, but adding the edge 0 → 1 of weight 1, whose target 1 has no
adjacency entry, makes the query select node 1 and abort with `none`. -/
theorem claim_C9_cex :
    nonnegWeights baseGraph ∧
    dejkstras_alg baseGraph 0 3 = some 5 ∧
    addEdge baseGraph 0 1 1 = malformedGraph ∧
    nonnegWeights malformedGraph ∧
    dejkstras_alg malformedGraph 0 3 = none := by decide

/-- C9 (amended): if the graph with the new edge added is
`HashMap`-well-formed, has non-negative weights and total weight below
`2^30`, and every node reachable from `start` in it has an adjacency entry,
then adding the edge never increases the returned cost and never turns a
present result into an absent one. -/
theorem claim_C9 {K : Type} [DecidableEq K] {g : NodeGraph K} {s f u v : K}
    {w c : Int}
    (hwf' : graphWF (addEdge g u v w))
    (hw' : nonnegWeights (addEdge g u v w))
    (hb' : totalWeight (addEdge g u v w) < 1073741824)
    (hcl' : closedFrom (addEdge g u v w) s)
    (h : dejkstras_alg g s f = some c) :
    ∃ c', dejkstras_alg (addEdge g u v w) s f = some c' ∧ c' ≤ c := by
  have hwf := graphWF_addEdge hwf'
  have hw := nonneg_addEdge hw'
  have h0w : 0 ≤ w := edge_nonneg hw' (edgeMem_addEdge_self g u v w)
  have hble : totalWeight g ≤ totalWeight (addEdge g u v w) := by
    rw [totalWeight_addEdge]
    omega
  have hb : totalWeight g < 1073741824 := by omega
  have hmin := dejkstras_alg_sound hwf hw hb h
  have hpath' : PathCost (addEdge g u v w) s f c := pathCost_addEdge hmin.1
  obtain ⟨c', hres, hmin'⟩ := dejkstras_alg_complete hwf' hw' hb' hcl' hpath'
  exact ⟨c', hres, hmin'.2 c hpath'⟩

/-- C9 (witness): adding the well-formed edge 3 → 0 to `baseGraph` keeps
the result for 0 → 3 present and no larger than 5. -/
theorem claim_C9_witness :
    graphWF (addEdge baseGraph 3 0 1) ∧
    nonnegWeights (addEdge baseGraph 3 0 1) ∧
    totalWeight (addEdge baseGraph 3 0 1) < 1073741824 ∧
    closedFrom (addEdge baseGraph 3 0 1) 0 ∧
    dejkstras_alg baseGraph 0 3 = some 5 ∧
    (∃ c', dejkstras_alg (addEdge baseGraph 3 0 1) 0 3 = some c' ∧
      c' ≤ 5) := by
  have hwf' : graphWF (addEdge baseGraph 3 0 1) := by decide
  have hw' : nonnegWeights (addEdge baseGraph 3 0 1) := by decide
  have hb' : totalWeight (addEdge baseGraph 3 0 1) < 1073741824 := by decide
  have hcl' : closedFrom (addEdge baseGraph 3 0 1) 0 :=
    closed_of_targets (by decide)
  have h : dejkstras_alg baseGraph 0 3 = some 5 := by decide
  exact ⟨hwf', hw', hb', hcl', h, claim_C9 hwf' hw' hb' hcl' h⟩

/-- C10: when `start` has an empty adjacency map, `dejkstras_alg g start
start` returns `none`, not a zero cost: the trivial empty path is not
considered. -/
theorem claim_C10 {K : Type} [DecidableEq K] {g : NodeGraph K} {s : K}
    (h : alookup g s = some []) : dejkstras_alg g s s = none := by
  simp only [dejkstras_alg, h, dfuel]
  rw [dloop_succ,
    dstep_done_of (show find_lowest_cost_node ([] : HMap K Int) [] = none
      from rfl)]
  rfl

/-- C10 (witness): start 0 with an empty adjacency map. -/
theorem claim_C10_witness :
    alookup emptyStartGraph 0 = some [] ∧
    dejkstras_alg emptyStartGraph 0 0 = none :=
  ⟨by decide, claim_C10 (by decide)⟩

end Dejkstra
